import Mathlib

/-!
Verification of the block-synchronization core of the randchain prototype:
the synchronous block ingestion pipeline (`BlocksWriter` in
`sync/src/blocks_writer.rs`) and the peer request server
(`sync/src/synchronization_server.rs`).

The Rust code is shallowly embedded: hashes are `Nat`, the block store is a
list of hashes (writer side) or association lists (server side), fallible
operations return `Option`.  Components of the repository whose sources are
not available (the orphan pool, the chain commit and the verifier) are
modelled from the specification; each such definition says so in its doc
comment.
-/

/-! ## Data model -/

/-- The raw 80-byte block header; only the fields this development needs. -/
structure BlockHeaderRaw where
  version : Nat
  previous_header_hash : Nat
deriving DecidableEq, Repr

/-- A header carrying its precomputed hash (`IndexedBlockHeader`). -/
structure IndexedBlockHeader where
  hash : Nat
  raw : BlockHeaderRaw
deriving DecidableEq, Repr

/-- A block carrying its precomputed hash (`IndexedBlock`); the transaction
list plays no role in any claim and is omitted. -/
structure IndexedBlock where
  hash : Nat
  header : IndexedBlockHeader
deriving DecidableEq, Repr

/-- Parent-hash projection of a block. -/
def IndexedBlock.prevHash (b : IndexedBlock) : Nat :=
  b.header.raw.previous_header_hash

/-- `sync::Error` (`TooManyOrphanBlocks`, `Verification`, `Database`). -/
inductive SyncError where
  | TooManyOrphanBlocks
  | Verification (reason : String)
  | Database (reason : String)
deriving DecidableEq, Repr

/-! ## BlocksWriter (`sync/src/blocks_writer.rs`)

The writer owns a storage (modelled as the list of stored block hashes,
queried through `contains_block`), an orphan pool, and the verification
sink's error slot.  The verifier and the chain commit are external to the
available sources; their outcomes are supplied by an oracle. -/

/-- `MAX_ORPHANED_BLOCKS` from `blocks_writer.rs`. -/
def MAX_ORPHANED_BLOCKS : Nat := 1024

/-- Modelled from the spec: outcomes of the missing verifier
(`SyncVerifier::verify_block`) and chain commit (`Chain::insert_best_block`).
`verifyBlock b = none` means the verifier reports success for `b`;
`some reason` means it calls `on_block_verification_error` with `reason`.
`insertBestBlock b = none` means the chain commit succeeds (the block enters
storage); `some e` means storage rejected the commit with database error `e`. -/
structure VerifierOracle where
  verifyBlock : IndexedBlock → Option String
  insertBestBlock : IndexedBlock → Option String

/-- State of `BlocksWriter`: the storage (hashes of stored blocks), the
orphan pool and the sink's error slot (`BlocksWriterSinkData.err`). -/
structure BlocksWriter where
  storage : List Nat
  orphaned_blocks_pool : List IndexedBlock
  err : Option SyncError
deriving DecidableEq, Repr

/-- `BlockProvider::contains_block(ByHash(h))` on the writer's storage. -/
def contains_block (storage : List Nat) (h : Nat) : Bool :=
  storage.contains h

/-- Modelled from the spec: `OrphanBlocksPool::insert_orphaned_block`
(missing from the available sources).  The pool keeps at most one copy per
hash and insertion is idempotent on the hash. -/
def insert_orphaned_block (pool : List IndexedBlock) (b : IndexedBlock) :
    List IndexedBlock :=
  if pool.any (fun x => x.hash == b.hash) then pool else pool ++ [b]

/-- Split the pool into the direct children of hash `h` and the rest. -/
def drainMatches (pool : List IndexedBlock) (h : Nat) :
    List IndexedBlock × List IndexedBlock :=
  pool.partition (fun x => x.header.raw.previous_header_hash == h)

/-- Worklist loop of the orphan-pool drain: repeatedly remove from the pool
every block whose parent hash is at the head of the frontier, pushing the
hashes of the removed blocks onto the frontier.  Each step consumes one
frontier entry and moves the matching pool entries, so
`fuel = frontier.length + pool.length` always suffices. -/
def drainLoop :
    Nat → List Nat → List IndexedBlock → List IndexedBlock →
    List IndexedBlock × List IndexedBlock
  | _, [], pool, removed => (removed, pool)
  | 0, _ :: _, pool, removed => (removed, pool)
  | fuel + 1, h :: frontier, pool, removed =>
    drainLoop fuel (frontier ++ (drainMatches pool h).1.map (fun x => x.hash))
      (drainMatches pool h).2 (removed ++ (drainMatches pool h).1)

/-- Modelled from the spec: `OrphanBlocksPool::remove_blocks_for_parent`
(missing from the available sources).  Removes every block directly or
transitively descending from `parentHash`; returns the removed blocks in
ancestor-first order together with the remaining pool. -/
def remove_blocks_for_parent (pool : List IndexedBlock) (parentHash : Nat) :
    List IndexedBlock × List IndexedBlock :=
  drainLoop (pool.length + 1) [parentHash] pool []

/-- `BlocksWriterSink::on_block_verification_success`: commit the block via
the chain; on a database error record it in the sink's error slot. -/
def on_block_verification_success (o : VerifierOracle) (st : BlocksWriter)
    (b : IndexedBlock) : BlocksWriter :=
  match o.insertBestBlock b with
  | some e => { st with err := some (SyncError.Database e) }
  | none => { st with storage := st.storage ++ [b.hash] }

/-- `BlocksWriterSink::on_block_verification_error`: record the verification
error in the sink's error slot. -/
def on_block_verification_error (st : BlocksWriter) (reason : String) :
    BlocksWriter :=
  { st with err := some (SyncError.Verification reason) }

/-- Modelled from the spec: the missing `SyncVerifier::verify_block` delivers
exactly one sink callback, synchronously on the calling thread. -/
def verify_block (o : VerifierOracle) (st : BlocksWriter) (b : IndexedBlock) :
    BlocksWriter :=
  match o.verifyBlock b with
  | none => on_block_verification_success o st b
  | some reason => on_block_verification_error st reason

/-- `BlocksWriterSinkData::error`: take (and thereby clear) the stored error. -/
def sink_take_error (st : BlocksWriter) : Option SyncError × BlocksWriter :=
  (st.err, { st with err := none })

/-- The verification loop of `append_block`: pop blocks from the front of the
queue, verify each, and return the first error observed in the sink. -/
def processVerificationQueue (o : VerifierOracle) :
    BlocksWriter → List IndexedBlock → BlocksWriter × Option SyncError
  | st, [] => (st, none)
  | st, b :: rest =>
    let st1 := verify_block o st b
    let te := sink_take_error st1
    match te.1 with
    | some e => (te.2, some e)
    | none => processVerificationQueue o te.2 rest

/-- `BlocksWriter::append_block`. -/
def append_block (o : VerifierOracle) (st : BlocksWriter) (b : IndexedBlock) :
    BlocksWriter × Option SyncError :=
  if contains_block st.storage b.hash then (st, none)
  else if !contains_block st.storage b.header.raw.previous_header_hash then
    let pool := insert_orphaned_block st.orphaned_blocks_pool b
    let st1 := { st with orphaned_blocks_pool := pool }
    if pool.length > MAX_ORPHANED_BLOCKS then
      (st1, some SyncError.TooManyOrphanBlocks)
    else (st1, none)
  else
    let dr := remove_blocks_for_parent st.orphaned_blocks_pool b.hash
    let st1 := { st with orphaned_blocks_pool := dr.2 }
    processVerificationQueue o st1 (b :: dr.1)

/-- The verdict the modelled verifier delivers for a single block: `none`
when verification and the chain commit both succeed, otherwise the error the
sink records. -/
def verification_outcome (o : VerifierOracle) (b : IndexedBlock) :
    Option SyncError :=
  match o.verifyBlock b with
  | some r => some (SyncError.Verification r)
  | none => (o.insertBestBlock b).map SyncError.Database

/-! ## Peer request server (`sync/src/synchronization_server.rs`)

Server-side storage is the read-only `BlockProvider` view, modelled by
association lists: main-chain heights by hash (`numbers`), canonical hashes
by height (`canonical`), headers by hash (`headers`, including side
branches) and full blocks by hash (`blocks`). -/

/-- Association-list lookup (the shallow embedding of keyed collections). -/
def assoc_lookup {α : Type} : List (Nat × α) → Nat → Option α
  | [], _ => none
  | (k, v) :: rest, p => if k = p then some v else assoc_lookup rest p

/-- Replace the value stored under key `p` (first occurrence). -/
def assoc_update {α : Type} : List (Nat × α) → Nat → α → List (Nat × α)
  | [], _, _ => []
  | (k, v) :: rest, p, w =>
    if k = p then (k, w) :: rest else (k, v) :: assoc_update rest p w

/-- Remove the entry stored under key `p` (first occurrence). -/
def assoc_remove {α : Type} : List (Nat × α) → Nat → List (Nat × α)
  | [], _ => []
  | (k, v) :: rest, p => if k = p then rest else (k, v) :: assoc_remove rest p

/-- The `BlockProvider` view of storage used by the server. -/
structure ServerStorage where
  numbers : List (Nat × Nat)
  canonical : List (Nat × Nat)
  headers : List (Nat × IndexedBlockHeader)
  blocks : List (Nat × IndexedBlock)

/-- `BlockProvider::block_number`: height on the main chain. -/
def block_number (st : ServerStorage) (h : Nat) : Option Nat :=
  assoc_lookup st.numbers h

/-- `BlockProvider::block_hash`: canonical hash at a height. -/
def block_hash (st : ServerStorage) (n : Nat) : Option Nat :=
  assoc_lookup st.canonical n

/-- `BlockHeaderProvider::block_header` by hash. -/
def block_header (st : ServerStorage) (h : Nat) : Option IndexedBlockHeader :=
  assoc_lookup st.headers h

/-- `BlockProvider::block` by hash. -/
def block (st : ServerStorage) (h : Nat) : Option IndexedBlock :=
  assoc_lookup st.blocks h

/-- `types::GETBLOCKS_MAX_RESPONSE_HASHES`. -/
def GETBLOCKS_MAX_RESPONSE_HASHES : Nat := 500

/-- `types::GETHEADERS_MAX_RESPONSE_HEADERS`. -/
def GETHEADERS_MAX_RESPONSE_HEADERS : Nat := 2000

/-- `common::InventoryType` (only the variants the server handles). -/
inductive InventoryType where
  | Error
  | MessageBlock
deriving DecidableEq, Repr

/-- `common::InventoryVector`. -/
structure InventoryVector where
  inv_type : InventoryType
  hash : Nat
deriving DecidableEq, Repr

/-- `common::InventoryVector::block`. -/
def InventoryVector.block (h : Nat) : InventoryVector :=
  ⟨InventoryType.MessageBlock, h⟩

/-- `types::GetBlocks`. -/
structure GetBlocksMessage where
  version : Nat
  block_locator_hashes : List Nat
  hash_stop : Nat
deriving DecidableEq, Repr

/-- `types::GetHeaders`. -/
structure GetHeadersMessage where
  version : Nat
  block_locator_hashes : List Nat
  hash_stop : Nat
deriving DecidableEq, Repr

/-- `ServerTask` (the message payloads reduced to their inventory /
locator content). -/
inductive ServerTask where
  | GetData (peer : Nat) (inventory : List InventoryVector)
  | ReversedGetData (peer : Nat) (inventory : List InventoryVector)
      (notfound : List InventoryVector)
  | GetBlocks (peer : Nat) (message : GetBlocksMessage)
  | GetHeaders (peer : Nat) (message : GetHeadersMessage) (request_id : Nat)
  | Mempool (peer : Nat)
deriving DecidableEq, Repr

/-- `ServerTask::peer_index`. -/
def ServerTask.peer_index : ServerTask → Nat
  | ServerTask.GetData peer _ => peer
  | ServerTask.ReversedGetData peer _ _ => peer
  | ServerTask.GetBlocks peer _ => peer
  | ServerTask.GetHeaders peer _ _ => peer
  | ServerTask.Mempool peer => peer

/-- Outbound wire tasks (`synchronization_executor::Task`), restricted to
the ones the server emits. -/
inductive OutboundTask where
  | Block (peer : Nat) (blk : IndexedBlock)
  | Inventory (peer : Nat) (inventory : List InventoryVector)
  | Headers (peer : Nat) (headers : List BlockHeaderRaw)
      (request_id : Option Nat)
  | NotFound (peer : Nat) (inventory : List InventoryVector)
deriving DecidableEq, Repr

/-- Reason string passed to `Peers::misbehaving` for an unresolvable
`getblocks` locator. -/
def getblocks_misbehave_reason : String :=
  "Got \x27getblocks\x27 message without known blocks"

/-- Reason string passed to `Peers::misbehaving` for an unresolvable
`getheaders` locator. -/
def getheaders_misbehave_reason : String :=
  "Got \x27headers\x27 message without known blocks"

/-- The back-walk of `locate_best_common_block`: follow
`previous_header_hash` links from `h` until a predecessor on the main chain
is found (return its height) or the header chain ends.  The source loop is
unbounded; on the acyclic header graphs storage produces it makes at most
one step per stored header, so `headers.length + 1` fuel is exact. -/
def walkBack (st : ServerStorage) : Nat → Nat → Option Nat
  | 0, _ => none
  | fuel + 1, h =>
    match block_header st h with
    | none => none
    | some hd =>
      match block_number st hd.raw.previous_header_hash with
      | some n => some n
      | none => walkBack st fuel hd.raw.previous_header_hash

/-- The per-candidate body of `locate_best_common_block`: direct main-chain
hit, otherwise the back-walk. -/
def locate_candidate (st : ServerStorage) (h : Nat) : Option Nat :=
  match block_number st h with
  | some n => some n
  | none => walkBack st (st.headers.length + 1) h

/-- `ServerTaskExecutor::locate_best_common_block`. -/
def locate_best_common_block (st : ServerStorage) (hash_stop : Nat)
    (locator : List Nat) : Option Nat :=
  (locator ++ [hash_stop]).findSome? (locate_candidate st)

/-- The fused iterator chain of `serve_get_blocks`: canonical hashes from
`height` on, stopping at the first missing height or at `hash_stop`
(exclusive), up to `count` of them. -/
def collectBlockHashes (st : ServerStorage) (hash_stop : Nat) :
    Nat → Nat → List Nat
  | _, 0 => []
  | height, count + 1 =>
    match block_hash st height with
    | none => []
    | some h =>
      if h = hash_stop then []
      else h :: collectBlockHashes st hash_stop (height + 1) count

/-- The fused iterator chain of `serve_get_headers`: like
`collectBlockHashes` but resolving each hash to its raw header and also
stopping at the first hash whose header is missing. -/
def collectBlockHeaders (st : ServerStorage) (hash_stop : Nat) :
    Nat → Nat → List BlockHeaderRaw
  | _, 0 => []
  | height, count + 1 =>
    match block_hash st height with
    | none => []
    | some h =>
      if h = hash_stop then []
      else
        match block_header st h with
        | none => []
        | some hd => hd.raw :: collectBlockHeaders st hash_stop (height + 1) count

/-- `ServerTaskExecutor::serve_get_data`: reverse the inventory and
continue as `ReversedGetData` with an empty notfound accumulator. -/
def serve_get_data (peer : Nat) (inventory : List InventoryVector) :
    Option ServerTask :=
  some (ServerTask.ReversedGetData peer inventory.reverse [])

/-- `ServerTaskExecutor::serve_reversed_get_data`: serve one inventory item
popped from the back; returns the continuation task and the outbound tasks
emitted during this dispatch. -/
def serve_reversed_get_data (st : ServerStorage) (peer : Nat)
    (inventory notfound : List InventoryVector) :
    Option ServerTask × List OutboundTask :=
  match inventory.getLast? with
  | none =>
    (none, if notfound.isEmpty then [] else [OutboundTask.NotFound peer notfound])
  | some next_item =>
    match next_item.inv_type with
    | InventoryType.MessageBlock =>
      match block st next_item.hash with
      | some blk =>
        (some (ServerTask.ReversedGetData peer inventory.dropLast notfound),
          [OutboundTask.Block peer blk])
      | none =>
        (some (ServerTask.ReversedGetData peer inventory.dropLast
          (notfound ++ [next_item])), [])
    | InventoryType.Error =>
      (some (ServerTask.ReversedGetData peer inventory.dropLast notfound), [])

/-- `ServerTaskExecutor::serve_get_blocks`; the second component records
`Peers::misbehaving` reports. -/
def serve_get_blocks (st : ServerStorage) (peer : Nat)
    (message : GetBlocksMessage) : List OutboundTask × List (Nat × String) :=
  match locate_best_common_block st message.hash_stop
      message.block_locator_hashes with
  | some block_height =>
    let inventory := (collectBlockHashes st message.hash_stop
      (block_height + 1) GETBLOCKS_MAX_RESPONSE_HASHES).map InventoryVector.block
    if inventory.isEmpty then ([], [])
    else ([OutboundTask.Inventory peer inventory], [])
  | none => ([], [(peer, getblocks_misbehave_reason)])

/-- `ServerTaskExecutor::serve_get_headers`. -/
def serve_get_headers (st : ServerStorage) (peer : Nat)
    (message : GetHeadersMessage) (request_id : Nat) :
    List OutboundTask × List (Nat × String) :=
  match locate_best_common_block st message.hash_stop
      message.block_locator_hashes with
  | some block_height =>
    ([OutboundTask.Headers peer
      (collectBlockHeaders st message.hash_stop (block_height + 1)
        GETHEADERS_MAX_RESPONSE_HEADERS) (some request_id)], [])
  | none => ([], [(peer, getheaders_misbehave_reason)])

/-- `ServerTaskExecutor::execute`: dispatch one task, returning the
continuation (if any), the outbound tasks emitted, and the misbehaving
reports made. -/
def execute_server_task (st : ServerStorage) :
    ServerTask → Option ServerTask × List OutboundTask × List (Nat × String)
  | ServerTask.GetData peer inventory => (serve_get_data peer inventory, [], [])
  | ServerTask.ReversedGetData peer inventory notfound =>
    ((serve_reversed_get_data st peer inventory notfound).1,
      (serve_reversed_get_data st peer inventory notfound).2, [])
  | ServerTask.GetBlocks peer message =>
    (none, (serve_get_blocks st peer message).1, (serve_get_blocks st peer message).2)
  | ServerTask.GetHeaders peer message request_id =>
    (none, (serve_get_headers st peer message request_id).1,
      (serve_get_headers st peer message request_id).2)
  | ServerTask.Mempool _ => (none, [], [])

/-- The worker's treatment of a single submitted task: execute it and keep
re-executing the returned continuation (`add_task_front` followed by the
next dispatch), collecting every outbound task emitted along the way. -/
def run_server_task (st : ServerStorage) : Nat → ServerTask → List OutboundTask
  | 0, _ => []
  | fuel + 1, task =>
    match execute_server_task st task with
    | (none, outs, _) => outs
    | (some cont, outs, _) => outs ++ run_server_task st fuel cont

/-! ## Specification-side definitions

These definitions transcribe the specification's words (staged iterator
pipelines, ancestry, expected responses); the theorems below compare them
with the code-side definitions above. -/

/-- One `previous_header_hash` step through the header store. -/
def step_prev (st : ServerStorage) (h : Nat) : Option Nat :=
  (block_header st h).map (fun hd => hd.raw.previous_header_hash)

/-- `k`-fold iteration of `step_prev`. -/
def iterPrev (st : ServerStorage) : Nat → Nat → Option Nat
  | 0, h => some h
  | k + 1, h =>
    match step_prev st h with
    | none => none
    | some h' => iterPrev st k h'

/-- `a` is an ancestor of `h` (inclusive): reachable from `h` by following
`previous_header_hash` links through stored headers. -/
def IsAncestor (st : ServerStorage) (a h : Nat) : Prop :=
  ∃ k, iterPrev st k h = some a

/-- Well-formedness of the chain store: main-chain heights never increase
towards ancestors.  True of any storage whose main chain is a contiguous
sequence from genesis. -/
def MonotoneHeights (st : ServerStorage) : Prop :=
  ∀ a h na nh, IsAncestor st a h → block_number st a = some na →
    block_number st h = some nh → na ≤ nh

/-- `h` has an ancestor (inclusive) on the main chain. -/
def HasCanonicalAncestor (st : ServerStorage) (h : Nat) : Prop :=
  ∃ a n, IsAncestor st a h ∧ block_number st a = some n

/-- Written from the spec: the staged pipeline of successor hashes — map
heights to canonical hashes, stop at the first missing one, then stop at
`hash_stop` (exclusive). -/
def specSuccessorHashes (st : ServerStorage) (start count hash_stop : Nat) :
    List Nat :=
  ((((List.range' start count).map (block_hash st)).takeWhile
    Option.isSome).reduceOption).takeWhile (fun h => h != hash_stop)

/-- Written from the spec: the staged pipeline of successor header records —
the successor hashes resolved to raw headers, stopping at the first hash
whose header is missing. -/
def specSuccessorHeaders (st : ServerStorage) (start count hash_stop : Nat) :
    List BlockHeaderRaw :=
  ((((specSuccessorHashes st start count hash_stop).map
    (block_header st)).takeWhile Option.isSome).reduceOption).map
    (fun hd => hd.raw)

/-- Written from the spec: the expected `getblocks` response — misbehaving
report when no common block exists, one inventory of `MessageBlock` items
iff the successor list is non-empty. -/
def specGetBlocksResponse (st : ServerStorage) (peer : Nat)
    (message : GetBlocksMessage) : List OutboundTask × List (Nat × String) :=
  match locate_best_common_block st message.hash_stop
      message.block_locator_hashes with
  | some height =>
    let hs := specSuccessorHashes st (height + 1) GETBLOCKS_MAX_RESPONSE_HASHES
      message.hash_stop
    if hs = [] then ([], [])
    else ([OutboundTask.Inventory peer (hs.map InventoryVector.block)], [])
  | none => ([], [(peer, getblocks_misbehave_reason)])

/-- Written from the spec: the expected `getheaders` response — misbehaving
report when no common block exists, otherwise always exactly one `Headers`
task carrying the request id, even when the header list is empty. -/
def specGetHeadersResponse (st : ServerStorage) (peer : Nat)
    (message : GetHeadersMessage) (request_id : Nat) :
    List OutboundTask × List (Nat × String) :=
  match locate_best_common_block st message.hash_stop
      message.block_locator_hashes with
  | some height =>
    ([OutboundTask.Headers peer
      (specSuccessorHeaders st (height + 1) GETHEADERS_MAX_RESPONSE_HEADERS
        message.hash_stop) (some request_id)], [])
  | none => ([], [(peer, getheaders_misbehave_reason)])

/-- Written from the spec: the `Block` tasks for the `getdata` items found
in storage, in the original inventory order. -/
def getDataHits (st : ServerStorage) (peer : Nat)
    (inventory : List InventoryVector) : List OutboundTask :=
  inventory.filterMap (fun item =>
    if item.inv_type == InventoryType.MessageBlock then
      (block st item.hash).map (OutboundTask.Block peer)
    else none)

/-- Written from the spec: the `MessageBlock` items missing from storage,
in the original inventory order. -/
def getDataMissing (st : ServerStorage) (inventory : List InventoryVector) :
    List InventoryVector :=
  inventory.filter (fun item =>
    item.inv_type == InventoryType.MessageBlock && (block st item.hash).isNone)

/-- Written from the spec: the expected complete `getdata` service — one
`Block` task per found item in order, then one `NotFound` task listing the
missing items iff there is at least one. -/
def specGetDataResponse (st : ServerStorage) (peer : Nat)
    (inventory : List InventoryVector) : List OutboundTask :=
  getDataHits st peer inventory ++
    (if getDataMissing st inventory = [] then []
     else [OutboundTask.NotFound peer (getDataMissing st inventory)])

/-! ## ServerQueue (`ServerQueue` in `synchronization_server.rs`)

`tasks_queue` is the `HashMap<usize, VecDeque<ServerTask>>`, embedded as an
association list with unique keys; `peers_queue` is the round-robin
`VecDeque<usize>`. -/

/-- The server task queue. -/
structure ServerQueue where
  peers_queue : List Nat
  tasks_queue : List (Nat × List ServerTask)
deriving Repr

/-- `ServerQueue::add_task`. -/
def ServerQueue.add_task (q : ServerQueue) (task : ServerTask) : ServerQueue :=
  let peer_index := task.peer_index
  match assoc_lookup q.tasks_queue peer_index with
  | some ts =>
    let add_to_peers_queue := ts.isEmpty
    let q' : ServerQueue :=
      ⟨q.peers_queue, assoc_update q.tasks_queue peer_index (ts ++ [task])⟩
    if add_to_peers_queue then ⟨q'.peers_queue ++ [peer_index], q'.tasks_queue⟩
    else q'
  | none =>
    ⟨q.peers_queue ++ [peer_index], (peer_index, [task]) :: q.tasks_queue⟩

/-- `ServerQueue::add_task_front` (used to reinject continuations). -/
def ServerQueue.add_task_front (q : ServerQueue) (task : ServerTask) :
    ServerQueue :=
  let peer_index := task.peer_index
  match assoc_lookup q.tasks_queue peer_index with
  | some ts =>
    let add_to_peers_queue := ts.isEmpty
    let q' : ServerQueue :=
      ⟨q.peers_queue, assoc_update q.tasks_queue peer_index (task :: ts)⟩
    if add_to_peers_queue then ⟨q'.peers_queue ++ [peer_index], q'.tasks_queue⟩
    else q'
  | none =>
    ⟨q.peers_queue ++ [peer_index], (peer_index, [task]) :: q.tasks_queue⟩

/-- `ServerQueue::next_task`.  The two `expect` panics of the source
(reached only when the queue invariant is broken) are modelled as `none`
results. -/
def ServerQueue.next_task (q : ServerQueue) : ServerQueue × Option ServerTask :=
  match q.peers_queue with
  | [] => (q, none)
  | peer_index :: rest =>
    match assoc_lookup q.tasks_queue peer_index with
    | none => (⟨rest, q.tasks_queue⟩, none)
    | some [] => (⟨rest, assoc_remove q.tasks_queue peer_index⟩, none)
    | some (t :: ts) =>
      if ts.isEmpty then (⟨rest, assoc_remove q.tasks_queue peer_index⟩, some t)
      else (⟨rest ++ [peer_index], assoc_update q.tasks_queue peer_index ts⟩,
        some t)

/-- `ServerQueue::remove_peer_tasks`.  The source finds the peer's position
in `peers_queue` (it `expect`s one when the map entry existed) and removes
it; under the no-duplicates invariant that is `List.erase`. -/
def ServerQueue.remove_peer_tasks (q : ServerQueue) (peer_index : Nat) :
    ServerQueue :=
  match assoc_lookup q.tasks_queue peer_index with
  | some _ =>
    ⟨q.peers_queue.erase peer_index, assoc_remove q.tasks_queue peer_index⟩
  | none => q

/-- The queue invariant: no duplicate peers, unique map keys, a peer is
scheduled iff it owns a non-empty task deque. -/
def ServerQueueInv (q : ServerQueue) : Prop :=
  q.peers_queue.Nodup ∧
  (q.tasks_queue.map Prod.fst).Nodup ∧
  (∀ p ∈ q.peers_queue, ∃ e ∈ q.tasks_queue, e.1 = p ∧ e.2 ≠ []) ∧
  (∀ e ∈ q.tasks_queue, e.2 ≠ [] ∧ e.1 ∈ q.peers_queue)

/-- The queue invariant only quantifies over the queue's own lists, so it
is decidable on concrete queues. -/
instance (q : ServerQueue) : Decidable (ServerQueueInv q) := by
  unfold ServerQueueInv
  infer_instance

/-! ## Writer invariant and concrete instances -/

/-- State invariant of the writer maintained by `append_block`: orphan-pool
hashes are distinct, and no pooled block (nor its parent) is already in
storage. -/
def WriterInv (st : BlocksWriter) : Prop :=
  ((st.orphaned_blocks_pool.map (fun x => x.hash)).Nodup) ∧
  (∀ x ∈ st.orphaned_blocks_pool, x.hash ∉ st.storage) ∧
  (∀ x ∈ st.orphaned_blocks_pool, x.prevHash ∉ st.storage)

/-- An oracle that verifies and commits every block. -/
def allGoodOracle : VerifierOracle :=
  ⟨fun _ => none, fun _ => none⟩

/-- A full orphan pool: 1024 blocks with distinct hashes whose parents are
all unknown. -/
def cexPool : List IndexedBlock :=
  (List.range MAX_ORPHANED_BLOCKS).map
    (fun i => ⟨i + 2, ⟨i + 2, ⟨0, i + 200000⟩⟩⟩)

/-- Writer state holding only the genesis hash and a full orphan pool. -/
def cexState : BlocksWriter :=
  ⟨[0], cexPool, none⟩

/-- A fresh orphan: neither its hash nor its parent is known. -/
def cexBlock : IndexedBlock :=
  ⟨1, ⟨1, ⟨0, 150000⟩⟩⟩

/-- A small concrete storage: canonical chain `10` (height 0) then `11`
(height 1), plus a side-branch block `12` whose parent is `10`. -/
def demoStorage : ServerStorage :=
  ⟨[(10, 0), (11, 1)], [(0, 10), (1, 11)],
   [(10, ⟨10, ⟨0, 999⟩⟩), (11, ⟨11, ⟨0, 10⟩⟩), (12, ⟨12, ⟨0, 10⟩⟩)],
   [(10, ⟨10, ⟨10, ⟨0, 999⟩⟩⟩), (11, ⟨11, ⟨11, ⟨0, 10⟩⟩⟩)]⟩

/-! ## Writer-side helper lemmas -/

theorem contains_block_iff (s : List Nat) (h : Nat) :
    contains_block s h = true ↔ h ∈ s := by
  simp [contains_block]

theorem insert_orphaned_block_sub {pool : List IndexedBlock} {b x : IndexedBlock}
    (hx : x ∈ insert_orphaned_block pool b) : x ∈ pool ∨ x = b := by
  unfold insert_orphaned_block at hx
  split at hx
  · exact Or.inl hx
  · rcases List.mem_append.1 hx with h | h
    · exact Or.inl h
    · exact Or.inr (List.mem_singleton.1 h)

theorem insert_orphaned_block_hash_mem (pool : List IndexedBlock)
    (b : IndexedBlock) :
    b.hash ∈ (insert_orphaned_block pool b).map (fun x => x.hash) := by
  unfold insert_orphaned_block
  split
  · next h =>
    simp only [List.any_eq_true, beq_iff_eq] at h
    obtain ⟨x, hx, hhash⟩ := h
    exact List.mem_map.2 ⟨x, hx, hhash⟩
  · simp

theorem insert_orphaned_block_length (pool : List IndexedBlock)
    (b : IndexedBlock) :
    (insert_orphaned_block pool b).length ≤ pool.length + 1 := by
  unfold insert_orphaned_block
  split <;> simp

theorem insert_orphaned_block_hash_nodup {pool : List IndexedBlock}
    (b : IndexedBlock) (hn : (pool.map (fun x => x.hash)).Nodup) :
    ((insert_orphaned_block pool b).map (fun x => x.hash)).Nodup := by
  unfold insert_orphaned_block
  split
  · exact hn
  · next h =>
    simp only [List.any_eq_true, beq_iff_eq, not_exists] at h
    push_neg at h
    simp only [List.map_append, List.map_cons, List.map_nil]
    refine List.Nodup.append hn (List.nodup_singleton _) ?_
    intro a ha hb
    simp only [List.mem_singleton] at hb
    obtain ⟨x, hx, hhx⟩ := List.mem_map.1 ha
    exact h x hx (hhx.trans hb)

theorem drainMatches_fst (pool : List IndexedBlock) (h : Nat) :
    (drainMatches pool h).1 =
      pool.filter (fun x => x.header.raw.previous_header_hash == h) := by
  simp [drainMatches, List.partition_eq_filter_filter]

theorem drainMatches_snd (pool : List IndexedBlock) (h : Nat) :
    (drainMatches pool h).2 =
      pool.filter (fun x => !(x.header.raw.previous_header_hash == h)) := by
  rw [drainMatches, List.partition_eq_filter_filter]
  rfl

theorem drainMatches_perm (pool : List IndexedBlock) (h : Nat) :
    List.Perm ((drainMatches pool h).1 ++ (drainMatches pool h).2) pool := by
  rw [drainMatches_fst, drainMatches_snd]
  exact List.filter_append_perm _ pool

theorem drainLoop_perm (fuel : Nat) (fr : List Nat)
    (pool removed : List IndexedBlock) :
    List.Perm
      ((drainLoop fuel fr pool removed).1 ++ (drainLoop fuel fr pool removed).2)
      (removed ++ pool) := by
  induction fuel, fr, pool, removed using drainLoop.induct with
  | case1 pool removed => simp [drainLoop]
  | case2 h fr pool removed => simp [drainLoop]
  | case3 fuel h fr pool removed ih =>
    rw [drainLoop]
    refine ih.trans ?_
    rw [List.append_assoc]
    exact List.Perm.append_left removed (drainMatches_perm pool h)

theorem drainLoop_pool_sub (fuel : Nat) (fr : List Nat)
    (pool removed : List IndexedBlock) :
    (drainLoop fuel fr pool removed).2 ⊆ pool := by
  induction fuel, fr, pool, removed using drainLoop.induct with
  | case1 pool removed => simp [drainLoop]
  | case2 h fr pool removed => simp [drainLoop]
  | case3 fuel h fr pool removed ih =>
    rw [drainLoop]
    refine ih.trans ?_
    rw [drainMatches_snd]
    exact fun x hx => (List.mem_filter.1 hx).1

theorem drainLoop_complete (fuel : Nat) (fr : List Nat)
    (pool removed : List IndexedBlock)
    (hfuel : fr.length + pool.length ≤ fuel) :
    ∀ x ∈ (drainLoop fuel fr pool removed).2,
      (∀ h ∈ fr, x.prevHash ≠ h) ∧
      (∀ y ∈ (drainLoop fuel fr pool removed).1,
        y ∈ removed ∨ x.prevHash ≠ y.hash) := by
  induction fuel, fr, pool, removed using drainLoop.induct with
  | case1 pool removed =>
    intro x _
    exact ⟨by simp, fun y hy => Or.inl (by simpa [drainLoop] using hy)⟩
  | case2 h fr pool removed => simp at hfuel
  | case3 fuel h fr pool removed ih =>
    have hlen : ((drainMatches pool h).1 ++ (drainMatches pool h).2).length =
        pool.length := (drainMatches_perm pool h).length_eq
    simp only [List.length_append] at hlen
    have hfuel' : (fr ++ (drainMatches pool h).1.map (fun x => x.hash)).length +
        (drainMatches pool h).2.length ≤ fuel := by
      simp only [List.length_append, List.length_map]
      simp only [List.length_cons] at hfuel
      omega
    intro x hx
    rw [drainLoop] at hx ⊢
    obtain ⟨hfr', hrem'⟩ := ih hfuel' x hx
    have hxpool2 : x ∈ (drainMatches pool h).2 :=
      drainLoop_pool_sub fuel _ _ _ hx
    have hxnoth : x.prevHash ≠ h := by
      rw [drainMatches_snd] at hxpool2
      have := (List.mem_filter.1 hxpool2).2
      simpa [IndexedBlock.prevHash] using this
    refine ⟨?_, ?_⟩
    · intro h' hh'
      rcases List.mem_cons.1 hh' with rfl | hh'
      · exact hxnoth
      · exact hfr' h' (List.mem_append_left _ hh')
    · intro y hy
      rcases hrem' y hy with hmem | hne
      · rcases List.mem_append.1 hmem with hmem | hmem
        · exact Or.inl hmem
        · refine Or.inr (hfr' y.hash ?_)
          exact List.mem_append_right _ (List.mem_map.2 ⟨y, hmem, rfl⟩)
      · exact Or.inr hne

theorem remove_blocks_for_parent_perm (pool : List IndexedBlock) (p : Nat) :
    List.Perm
      ((remove_blocks_for_parent pool p).1 ++ (remove_blocks_for_parent pool p).2)
      pool := by
  simpa [remove_blocks_for_parent] using
    drainLoop_perm (pool.length + 1) [p] pool []

theorem remove_blocks_for_parent_sub (pool : List IndexedBlock) (p : Nat) :
    (remove_blocks_for_parent pool p).2 ⊆ pool :=
  drainLoop_pool_sub (pool.length + 1) [p] pool []

theorem remove_blocks_for_parent_complete (pool : List IndexedBlock) (p : Nat) :
    ∀ x ∈ (remove_blocks_for_parent pool p).2,
      x.prevHash ≠ p ∧
      (∀ y ∈ (remove_blocks_for_parent pool p).1, x.prevHash ≠ y.hash) := by
  intro x hx
  have h := drainLoop_complete (pool.length + 1) [p] pool []
    (by simp only [List.length_singleton]; omega) x hx
  exact ⟨h.1 p (by simp), fun y hy => (h.2 y hy).resolve_left (by simp)⟩

theorem pvq_pool (o : VerifierOracle) :
    ∀ (q : List IndexedBlock) (st : BlocksWriter),
      (processVerificationQueue o st q).1.orphaned_blocks_pool =
        st.orphaned_blocks_pool := by
  intro q
  induction q with
  | nil => intro st; rfl
  | cons b rest ih =>
    intro st
    rw [processVerificationQueue]
    rcases hv : o.verifyBlock b with _ | r
    · rcases hi : o.insertBestBlock b with _ | d
      · rcases he : st.err with _ | e
        · simpa [verify_block, on_block_verification_success, sink_take_error,
            hv, hi, he] using ih _
        · simp [verify_block, on_block_verification_success, sink_take_error,
            hv, hi, he]
      · simp [verify_block, on_block_verification_success, sink_take_error,
          hv, hi]
    · simp [verify_block, on_block_verification_error, sink_take_error, hv]

theorem pvq_err_none (o : VerifierOracle) :
    ∀ (q : List IndexedBlock) (st : BlocksWriter), st.err = none →
      (processVerificationQueue o st q).1.err = none := by
  intro q
  induction q with
  | nil => intro st h; exact h
  | cons b rest ih =>
    intro st _
    rw [processVerificationQueue]
    rcases hv : o.verifyBlock b with _ | r
    · rcases hi : o.insertBestBlock b with _ | d
      · rcases he : st.err with _ | e
        · exact (by simpa [verify_block, on_block_verification_success,
            sink_take_error, hv, hi, he] using ih _ rfl)
        · simp [verify_block, on_block_verification_success, sink_take_error,
            hv, hi, he]
      · simp [verify_block, on_block_verification_success, sink_take_error,
          hv, hi]
    · simp [verify_block, on_block_verification_error, sink_take_error, hv]

theorem contains_block_false_iff (s : List Nat) (h : Nat) :
    contains_block s h = false ↔ h ∉ s := by
  simp [contains_block]

theorem pvq_none (o : VerifierOracle) :
    ∀ (q : List IndexedBlock) (st st' : BlocksWriter), st.err = none →
      processVerificationQueue o st q = (st', none) →
      st' = { st with storage := st.storage ++ q.map (fun x => x.hash) } := by
  intro q
  induction q with
  | nil =>
    intro st st' he hq
    rw [processVerificationQueue] at hq
    cases hq
    simp
  | cons b rest ih =>
    intro st st' he hq
    rw [processVerificationQueue] at hq
    rcases hv : o.verifyBlock b with _ | r
    · rcases hi : o.insertBestBlock b with _ | d
      · simp only [verify_block, on_block_verification_success,
          sink_take_error, hv, hi, he] at hq
        have := ih _ _ (by rfl) hq
        rw [this]
        simp [he, List.append_assoc]
      · simp [verify_block, on_block_verification_success, sink_take_error,
          hv, hi] at hq
    · simp [verify_block, on_block_verification_error, sink_take_error,
        hv] at hq

theorem pvq_first_error (o : VerifierOracle) :
    ∀ (pre : List IndexedBlock) (st : BlocksWriter) (bad : IndexedBlock)
      (post : List IndexedBlock) (e : SyncError),
      st.err = none →
      (∀ x ∈ pre, verification_outcome o x = none) →
      verification_outcome o bad = some e →
      processVerificationQueue o st (pre ++ bad :: post) =
        ({ st with storage := st.storage ++ pre.map (fun x => x.hash) },
          some e) := by
  intro pre
  induction pre with
  | nil =>
    intro st bad post e he _ hbad
    rw [List.nil_append, processVerificationQueue]
    rcases hv : o.verifyBlock bad with _ | r
    · rcases hi : o.insertBestBlock bad with _ | d
      · simp [verification_outcome, hv, hi] at hbad
      · have hbad' : SyncError.Database d = e := by
          simpa [verification_outcome, hv, hi] using hbad
        obtain ⟨st0, p0, e0⟩ := st
        simp only at he
        subst he
        simp only [verify_block, on_block_verification_success,
          sink_take_error, hv, hi]
        simp [hbad']
    · have hbad' : SyncError.Verification r = e := by
        simpa [verification_outcome, hv] using hbad
      obtain ⟨st0, p0, e0⟩ := st
      simp only at he
      subst he
      simp only [verify_block, on_block_verification_error, sink_take_error,
        hv]
      simp [hbad']
  | cons x pre' ih =>
    intro st bad post e he hpre hbad
    have hx : verification_outcome o x = none := hpre x (by simp)
    rcases hv : o.verifyBlock x with _ | r
    · rcases hi : o.insertBestBlock x with _ | d
      · rw [List.cons_append, processVerificationQueue]
        simp only [verify_block, on_block_verification_success,
          sink_take_error, hv, hi, he]
        have := ih { st with storage := st.storage ++ [x.hash], err := none }
          bad post e rfl (fun y hy => hpre y (by simp [hy])) hbad
        rw [this]
        simp [he, List.append_assoc]
      · simp [verification_outcome, hv, hi] at hx
    · simp [verification_outcome, hv] at hx

theorem drainLoop_pool_sublist (fuel : Nat) (fr : List Nat)
    (pool removed : List IndexedBlock) :
    List.Sublist (drainLoop fuel fr pool removed).2 pool := by
  induction fuel, fr, pool, removed using drainLoop.induct with
  | case1 pool removed => simp [drainLoop]
  | case2 h fr pool removed => simp [drainLoop]
  | case3 fuel h fr pool removed ih =>
    rw [drainLoop]
    refine ih.trans ?_
    rw [drainMatches_snd]
    exact List.filter_sublist pool

theorem remove_blocks_for_parent_sublist (pool : List IndexedBlock) (p : Nat) :
    List.Sublist (remove_blocks_for_parent pool p).2 pool :=
  drainLoop_pool_sublist (pool.length + 1) [p] pool []

theorem pvq_cons_err (o : VerifierOracle) (st st' : BlocksWriter)
    (b : IndexedBlock) (rest : List IndexedBlock)
    (h : processVerificationQueue o st (b :: rest) = (st', none)) :
    st.err = none := by
  rw [processVerificationQueue] at h
  rcases hv : o.verifyBlock b with _ | r
  · rcases hi : o.insertBestBlock b with _ | d
    · rcases he : st.err with _ | e
      · rfl
      · simp [verify_block, on_block_verification_success, sink_take_error,
          hv, hi, he] at h
    · simp [verify_block, on_block_verification_success, sink_take_error,
        hv, hi] at h
  · simp [verify_block, on_block_verification_error, sink_take_error, hv] at h

/-! ## Claim theorems: block ingestion -/

/-- C9: calling `append_block` a second time, after a first call that placed
the block in storage, returns `Ok(())` and leaves the writer state (storage
and orphan pool) exactly as it was after the first call. -/
theorem c9_append_block_duplicate_noop (o : VerifierOracle)
    (st st1 : BlocksWriter) (b : IndexedBlock) (r1 : Option SyncError)
    (h1 : append_block o st b = (st1, r1)) (h2 : b.hash ∈ st1.storage) :
    append_block o st1 b = (st1, none) := by
  unfold append_block
  rw [if_pos ((contains_block_iff _ _).2 h2)]

/-- Witness for C9 at a concrete duplicate append. -/
theorem c9_append_block_duplicate_noop_witness :
    append_block allGoodOracle ⟨[0], [], none⟩ ⟨5, ⟨5, ⟨0, 0⟩⟩⟩ =
        (⟨[0, 5], [], none⟩, none) ∧
      (5 : Nat) ∈ (⟨[0, 5], [], none⟩ : BlocksWriter).storage ∧
      append_block allGoodOracle ⟨[0, 5], [], none⟩ ⟨5, ⟨5, ⟨0, 0⟩⟩⟩ =
        (⟨[0, 5], [], none⟩, none) :=
  ⟨by decide, by decide,
    c9_append_block_duplicate_noop allGoodOracle ⟨[0], [], none⟩
      ⟨[0, 5], [], none⟩ ⟨5, ⟨5, ⟨0, 0⟩⟩⟩ none (by decide) (by decide)⟩

/-- C10: the sink error slot is consumed when read, so `append_block`
started with an empty error slot always leaves the slot empty — an error
returned by one call can never be returned again by a later call. -/
theorem c10_error_slot_consumed (o : VerifierOracle) (st : BlocksWriter)
    (b : IndexedBlock) (h : st.err = none) :
    (append_block o st b).1.err = none := by
  simp only [append_block]
  split
  · exact h
  · split
    · split
      · exact h
      · exact h
    · exact pvq_err_none o _ _ h

/-- Witness for C10: a failing call leaves the slot clean. -/
theorem c10_error_slot_consumed_witness :
    (⟨[0], [], none⟩ : BlocksWriter).err = none ∧
      (append_block ⟨fun _ => some "bad pow", fun _ => none⟩
        ⟨[0], [], none⟩ ⟨5, ⟨5, ⟨0, 0⟩⟩⟩).1.err = none :=
  ⟨rfl, c10_error_slot_consumed ⟨fun _ => some "bad pow", fun _ => none⟩
    ⟨[0], [], none⟩ ⟨5, ⟨5, ⟨0, 0⟩⟩⟩ rfl⟩

/-- C3: if some block of the verification queue (the appended block followed
by its drained orphan descendants) is the first to fail — by verifier
rejection or by chain-commit failure — then `append_block` returns exactly
that error, commits exactly the blocks before it, touches none of the
blocks after it, and the orphan pool is left at the post-drain remainder. -/
theorem c3_append_block_first_error (o : VerifierOracle) (st : BlocksWriter)
    (b bad : IndexedBlock) (pre post : List IndexedBlock) (e : SyncError)
    (herr : st.err = none)
    (hnew : b.hash ∉ st.storage)
    (hpar : b.header.raw.previous_header_hash ∈ st.storage)
    (hq : b :: (remove_blocks_for_parent st.orphaned_blocks_pool b.hash).1 =
      pre ++ bad :: post)
    (hpre : ∀ x ∈ pre, verification_outcome o x = none)
    (hbad : verification_outcome o bad = some e) :
    append_block o st b =
      (⟨st.storage ++ pre.map (fun x => x.hash),
        (remove_blocks_for_parent st.orphaned_blocks_pool b.hash).2, none⟩,
        some e) := by
  simp only [append_block]
  rw [if_neg (by simp [contains_block, hnew]),
    if_neg (by simp [contains_block, hpar])]
  rw [hq]
  have hrun := pvq_first_error o pre
    { st with orphaned_blocks_pool :=
        (remove_blocks_for_parent st.orphaned_blocks_pool b.hash).2 }
    bad post e herr hpre hbad
  rw [hrun, herr]

/-- Witness for C3: a verifier rejection surfaces and nothing is committed. -/
theorem c3_append_block_first_error_witness :
    append_block ⟨fun _ => some "bad pow", fun _ => none⟩
        ⟨[0], [], none⟩ ⟨5, ⟨5, ⟨0, 0⟩⟩⟩ =
      (⟨[0], [], none⟩, some (SyncError.Verification "bad pow")) := by
  have h := c3_append_block_first_error ⟨fun _ => some "bad pow", fun _ => none⟩
    ⟨[0], [], none⟩ ⟨5, ⟨5, ⟨0, 0⟩⟩⟩ ⟨5, ⟨5, ⟨0, 0⟩⟩⟩ [] [] 
    (SyncError.Verification "bad pow") rfl (by decide) (by decide) (by decide)
    (by decide) (by decide)
  exact h.trans (by decide)

set_option maxRecDepth 10000 in
/-- C1 counterexample: with the pool already holding 1024 orphans, appending
a fresh orphan does return `Err(TooManyOrphanBlocks)`, but the offending
block IS retained in the pool, whose length becomes 1025 — refuting both
"the offending block is not retained" and "len() ≤ 1024 after every
`append_block` call". -/
theorem c1_orphan_bound_counterexample :
    (append_block allGoodOracle cexState cexBlock).2 =
        some SyncError.TooManyOrphanBlocks ∧
      cexBlock ∈
        (append_block allGoodOracle cexState cexBlock).1.orphaned_blocks_pool ∧
      (append_block allGoodOracle cexState cexBlock).1.orphaned_blocks_pool.length =
        MAX_ORPHANED_BLOCKS + 1 := by
  decide

/-- C1 amended: appending a block whose parent is unknown inserts it into
the orphan pool and returns `Ok` when the pool size after insertion is
within `MAX_ORPHANED_BLOCKS` (1024) and `Err(TooManyOrphanBlocks)`
otherwise; in both cases (also on the error) the block is retained in the
pool, which grows by at most one entry per call. -/
theorem c1_orphan_bound_amended (o : VerifierOracle) (st : BlocksWriter)
    (b : IndexedBlock)
    (hnew : b.hash ∉ st.storage)
    (hpar : b.header.raw.previous_header_hash ∉ st.storage) :
    append_block o st b =
      ({ st with orphaned_blocks_pool :=
          insert_orphaned_block st.orphaned_blocks_pool b },
        if (insert_orphaned_block st.orphaned_blocks_pool b).length >
            MAX_ORPHANED_BLOCKS
        then some SyncError.TooManyOrphanBlocks else none) ∧
      b.hash ∈ ((insert_orphaned_block st.orphaned_blocks_pool b).map
        (fun x => x.hash)) ∧
      (insert_orphaned_block st.orphaned_blocks_pool b).length ≤
        st.orphaned_blocks_pool.length + 1 := by
  refine ⟨?_, insert_orphaned_block_hash_mem _ _,
    insert_orphaned_block_length _ _⟩
  simp only [append_block]
  rw [if_neg (by simp [contains_block, hnew]),
    if_pos (by simp [contains_block, hpar])]
  split
  · rfl
  · rfl

/-- Witness for the amended C1 at a concrete orphan append. -/
theorem c1_orphan_bound_amended_witness :
    (6 : Nat) ∉ (⟨[0], [], none⟩ : BlocksWriter).storage ∧
      (9 : Nat) ∉ (⟨[0], [], none⟩ : BlocksWriter).storage ∧
      append_block allGoodOracle ⟨[0], [], none⟩ ⟨6, ⟨6, ⟨0, 9⟩⟩⟩ =
        (⟨[0], [⟨6, ⟨6, ⟨0, 9⟩⟩⟩], none⟩, none) :=
  ⟨by decide, by decide, by
    have h := (c1_orphan_bound_amended allGoodOracle ⟨[0], [], none⟩
      ⟨6, ⟨6, ⟨0, 9⟩⟩⟩ (by decide) (by decide)).1
    exact h.trans (by decide)⟩

/-- C2: under the writer's state invariant (and hash-injectivity between the
appended block and the pooled blocks), whenever `append_block` returns `Ok`
the block is afterwards either in storage or in the orphan pool — never both
and never neither — and the state invariant is preserved. -/
theorem c2_append_block_storage_xor_pool (o : VerifierOracle)
    (st st' : BlocksWriter) (b : IndexedBlock)
    (hinv : WriterInv st)
    (hinj : ∀ x ∈ st.orphaned_blocks_pool, x.hash = b.hash → x = b)
    (hok : append_block o st b = (st', none)) :
    ((b.hash ∈ st'.storage ∧
        b.hash ∉ st'.orphaned_blocks_pool.map (fun x => x.hash)) ∨
      (b.hash ∉ st'.storage ∧
        b.hash ∈ st'.orphaned_blocks_pool.map (fun x => x.hash))) ∧
    WriterInv st' := by
  obtain ⟨hnd, hdisj, hpardisj⟩ := hinv
  simp only [append_block] at hok
  by_cases hmem : b.hash ∈ st.storage
  · rw [if_pos ((contains_block_iff _ _).2 hmem)] at hok
    have hst : st = st' := (Prod.ext_iff.1 hok).1
    subst hst
    refine ⟨Or.inl ⟨hmem, ?_⟩, hnd, hdisj, hpardisj⟩
    intro hbp
    obtain ⟨x, hx, hhx⟩ := List.mem_map.1 hbp
    exact hdisj x hx (hhx ▸ hmem)
  · rw [if_neg (fun hc => hmem ((contains_block_iff _ _).1 hc))] at hok
    by_cases hpar : b.header.raw.previous_header_hash ∈ st.storage
    · rw [if_neg (by simp [(contains_block_iff _ _).2 hpar])] at hok
      have herr1 := pvq_cons_err o _ st' b _ hok
      have hst' := pvq_none o _ _ st' herr1 hok
      have hbnotpool : b ∉ st.orphaned_blocks_pool := fun hb =>
        hpardisj b hb hpar
      have hsub := remove_blocks_for_parent_sub st.orphaned_blocks_pool b.hash
      have hsubl :=
        remove_blocks_for_parent_sublist st.orphaned_blocks_pool b.hash
      have hperm :=
        remove_blocks_for_parent_perm st.orphaned_blocks_pool b.hash
      have hcomp :=
        remove_blocks_for_parent_complete st.orphaned_blocks_pool b.hash
      have hndsplit :
          (((remove_blocks_for_parent st.orphaned_blocks_pool b.hash).1.map
              (fun x => x.hash)) ++
            ((remove_blocks_for_parent st.orphaned_blocks_pool b.hash).2.map
              (fun x => x.hash))).Nodup := by
        rw [← List.map_append]
        exact hnd.perm (hperm.map (fun x => x.hash)).symm
      rw [List.nodup_append] at hndsplit
      have hbhash2 : b.hash ∉
          (remove_blocks_for_parent st.orphaned_blocks_pool b.hash).2.map
            (fun x => x.hash) := by
        intro hbp
        obtain ⟨x, hx, hhx⟩ := List.mem_map.1 hbp
        exact hbnotpool (hinj x (hsub hx) hhx ▸ hsub hx)
      rw [hst']
      refine ⟨Or.inl ⟨by simp, hbhash2⟩, ?_, ?_, ?_⟩
      · exact hnd.sublist (hsubl.map (fun x => x.hash))
      · intro x hx hmem'
        rcases List.mem_append.1 hmem' with hs | hs
        · exact hdisj x (hsub hx) hs
        · rcases List.mem_cons.1 hs with hb | hb
          · exact hbnotpool (hinj x (hsub hx) hb ▸ hsub hx)
          · exact hndsplit.2.2 hb (List.mem_map.2 ⟨x, hx, rfl⟩)
      · intro x hx hmem'
        rcases List.mem_append.1 hmem' with hs | hs
        · exact hpardisj x (hsub hx) hs
        · rcases List.mem_cons.1 hs with hb | hb
          · exact (hcomp x hx).1 hb
          · obtain ⟨y, hy, hyx⟩ := List.mem_map.1 hb
            exact (hcomp x hx).2 y hy hyx.symm
    · rw [if_pos (by simp [(contains_block_false_iff _ _).2 hpar])] at hok
      split at hok
      · exact absurd (Prod.ext_iff.1 hok).2 (by simp)
      · have hst : _ = st' := (Prod.ext_iff.1 hok).1
        subst hst
        refine ⟨Or.inr ⟨hmem, insert_orphaned_block_hash_mem _ _⟩,
          insert_orphaned_block_hash_nodup b hnd, ?_, ?_⟩
        · intro x hx
          rcases insert_orphaned_block_sub hx with hx' | rfl
          · exact hdisj x hx'
          · exact hmem
        · intro x hx
          rcases insert_orphaned_block_sub hx with hx' | rfl
          · exact hpardisj x hx'
          · exact hpar

/-- Witness for C2 at a concrete verified append into an invariant state. -/
theorem c2_append_block_storage_xor_pool_witness :
    WriterInv ⟨[0], [⟨7, ⟨7, ⟨0, 9⟩⟩⟩], none⟩ ∧
      ((((5 : Nat) ∈ ([0, 5] : List Nat) ∧
          (5 : Nat) ∉
            ([⟨7, ⟨7, ⟨0, 9⟩⟩⟩] : List IndexedBlock).map (fun x => x.hash)) ∨
        ((5 : Nat) ∉ ([0, 5] : List Nat) ∧
          (5 : Nat) ∈
            ([⟨7, ⟨7, ⟨0, 9⟩⟩⟩] : List IndexedBlock).map (fun x => x.hash))) ∧
        WriterInv ⟨[0, 5], [⟨7, ⟨7, ⟨0, 9⟩⟩⟩], none⟩) :=
  ⟨⟨by decide, by decide, by decide⟩,
    c2_append_block_storage_xor_pool allGoodOracle
      ⟨[0], [⟨7, ⟨7, ⟨0, 9⟩⟩⟩], none⟩ ⟨[0, 5], [⟨7, ⟨7, ⟨0, 9⟩⟩⟩], none⟩
      ⟨5, ⟨5, ⟨0, 0⟩⟩⟩ ⟨by decide, by decide, by decide⟩ (by decide)
      (by decide)⟩

/-! ## Claim theorems: GetBlocks / GetHeaders -/

theorem collectBlockHashes_spec (st : ServerStorage) (hash_stop : Nat) :
    ∀ (count height : Nat),
      collectBlockHashes st hash_stop height count =
        specSuccessorHashes st height count hash_stop := by
  intro count
  induction count with
  | zero => intro height; simp [collectBlockHashes, specSuccessorHashes]
  | succ count ih =>
    intro height
    rw [collectBlockHashes, specSuccessorHashes, List.range'_succ,
      List.map_cons]
    rcases hbh : block_hash st height with _ | h
    · simp [List.takeWhile_cons, hbh]
    · by_cases hstop : h = hash_stop
      · simp [hbh, hstop, List.takeWhile_cons, List.reduceOption_cons_of_some]
      · simp [hbh, hstop, List.takeWhile_cons, List.reduceOption_cons_of_some,
          ih (height + 1), specSuccessorHashes]

theorem collectBlockHeaders_spec (st : ServerStorage) (hash_stop : Nat) :
    ∀ (count height : Nat),
      collectBlockHeaders st hash_stop height count =
        specSuccessorHeaders st height count hash_stop := by
  intro count
  induction count with
  | zero =>
    intro height
    simp [collectBlockHeaders, specSuccessorHeaders, specSuccessorHashes]
  | succ count ih =>
    intro height
    rw [collectBlockHeaders, specSuccessorHeaders, specSuccessorHashes,
      List.range'_succ, List.map_cons]
    rcases hbh : block_hash st height with _ | h
    · simp [List.takeWhile_cons, hbh]
    · by_cases hstop : h = hash_stop
      · simp [hbh, hstop, List.takeWhile_cons, List.reduceOption_cons_of_some]
      · rcases hhd : block_header st h with _ | hd
        · simp [hbh, hstop, hhd, List.takeWhile_cons,
            List.reduceOption_cons_of_some]
        · simp [hbh, hstop, hhd, List.takeWhile_cons,
            List.reduceOption_cons_of_some, ih (height + 1),
            specSuccessorHeaders, specSuccessorHashes]

/-- C5: `serve_get_blocks` behaves exactly as specified — misbehaving report
("Got 'getblocks' message without known blocks") and no outbound task when
no common block is found; otherwise up to 500 successor hashes collected
from the common height + 1, stopping at the first missing height or at
`hash_stop` (exclusive), emitted as a single `Inventory` of `MessageBlock`
items iff the list is non-empty. -/
theorem c5_serve_get_blocks (st : ServerStorage) (peer : Nat)
    (message : GetBlocksMessage) :
    serve_get_blocks st peer message = specGetBlocksResponse st peer message := by
  unfold serve_get_blocks specGetBlocksResponse
  rcases hloc : locate_best_common_block st message.hash_stop
      message.block_locator_hashes with _ | height
  · rfl
  · simp only [collectBlockHashes_spec]
    by_cases hempty : specSuccessorHashes st (height + 1)
        GETBLOCKS_MAX_RESPONSE_HASHES message.hash_stop = []
    · simp [hempty]
    · simp [hempty, List.isEmpty_iff, List.map_eq_nil_iff]

/-- C6: `serve_get_headers` behaves exactly as specified — when a common
block is found it always emits exactly one `Headers(peer, headers,
Some(request_id))` task, even when the collected header list is empty; the
headers are the raw headers of up to 2000 canonical successors of the
common height, with the same stop rules as `getblocks`. -/
theorem c6_serve_get_headers (st : ServerStorage) (peer : Nat)
    (message : GetHeadersMessage) (request_id : Nat) :
    serve_get_headers st peer message request_id =
      specGetHeadersResponse st peer message request_id := by
  unfold serve_get_headers specGetHeadersResponse
  rcases hloc : locate_best_common_block st message.hash_stop
      message.block_locator_hashes with _ | height
  · rfl
  · simp only [collectBlockHeaders_spec]

/-! ## Claim theorems: GetData -/

theorem run_reversed_get_data (st : ServerStorage) (peer : Nat) :
    ∀ (inventory notfound : List InventoryVector) (fuel : Nat),
      inventory.length < fuel →
      run_server_task st fuel
          (ServerTask.ReversedGetData peer inventory notfound) =
        getDataHits st peer inventory.reverse ++
          (if notfound ++ getDataMissing st inventory.reverse = [] then []
           else [OutboundTask.NotFound peer
             (notfound ++ getDataMissing st inventory.reverse)]) := by
  intro inventory
  induction inventory using List.reverseRecOn with
  | nil =>
    intro notfound fuel hfuel
    cases fuel with
    | zero => omega
    | succ fuel =>
      by_cases hnf : notfound = []
      · simp [run_server_task, execute_server_task, serve_reversed_get_data,
          getDataHits, getDataMissing, hnf]
      · simp [run_server_task, execute_server_task, serve_reversed_get_data,
          getDataHits, getDataMissing, hnf, List.isEmpty_iff]
  | append_singleton ys x ih =>
    intro notfound fuel hfuel
    cases fuel with
    | zero => simp at hfuel
    | succ fuel =>
      have hys : ys.length < fuel := by
        simp only [List.length_append, List.length_singleton] at hfuel
        omega
      rw [run_server_task]
      simp only [execute_server_task, serve_reversed_get_data,
        List.getLast?_concat, List.dropLast_concat]
      rcases hty : x.inv_type with _ | _
      · dsimp only
        rw [ih notfound fuel hys]
        simp [getDataHits, getDataMissing, List.reverse_append, hty]
      · rcases hblk : block st x.hash with _ | blk
        · dsimp only
          rw [ih (notfound ++ [x]) fuel hys]
          simp [getDataHits, getDataMissing, List.reverse_append, hty, hblk,
            List.filterMap_cons, List.filter_cons]
        · dsimp only
          rw [ih notfound fuel hys]
          simp [getDataHits, getDataMissing, List.reverse_append, hty, hblk,
            List.filterMap_cons, List.filter_cons]

/-- C7: serving `getdata` through the `ReversedGetData` continuation chain
processes exactly one inventory item per dispatch, emits one `Block` task
per `MessageBlock` item found in storage in the original inventory order,
silently skips `Error` items, and after the last item emits exactly one
`NotFound` task listing the missing items iff at least one was missing. -/
theorem c7_serve_get_data_run (st : ServerStorage) (peer : Nat)
    (inventory : List InventoryVector) (fuel : Nat)
    (hfuel : inventory.length + 2 ≤ fuel) :
    run_server_task st fuel (ServerTask.GetData peer inventory) =
        specGetDataResponse st peer inventory ∧
      ∀ (inv nf : List InventoryVector), inv ≠ [] →
        ∃ nf', (execute_server_task st
            (ServerTask.ReversedGetData peer inv nf)).1 =
          some (ServerTask.ReversedGetData peer inv.dropLast nf') := by
  constructor
  · cases fuel with
    | zero => omega
    | succ fuel =>
      rw [run_server_task]
      simp only [execute_server_task, serve_get_data]
      rw [run_reversed_get_data st peer inventory.reverse [] fuel
        (by simp only [List.length_reverse]; omega)]
      simp [specGetDataResponse, List.reverse_reverse]
  · intro inv nf hinv
    rcases hg : inv.getLast? with _ | x
    · exact absurd (List.getLast?_eq_none_iff.1 hg) hinv
    · rcases hty : x.inv_type with _ | _
      · exact ⟨nf, by
          simp [execute_server_task, serve_reversed_get_data, hg, hty]⟩
      · rcases hblk : block st x.hash with _ | blk
        · exact ⟨nf ++ [x], by
            simp [execute_server_task, serve_reversed_get_data, hg, hty, hblk]⟩
        · exact ⟨nf, by
            simp [execute_server_task, serve_reversed_get_data, hg, hty, hblk]⟩

/-- Witness for C7 at a concrete mixed inventory. -/
theorem c7_serve_get_data_run_witness :
    ([⟨InventoryType.MessageBlock, 10⟩, ⟨InventoryType.MessageBlock, 99⟩,
        ⟨InventoryType.Error, 5⟩] : List InventoryVector).length + 2 ≤ 6 ∧
      (run_server_task demoStorage 6 (ServerTask.GetData 0
          [⟨InventoryType.MessageBlock, 10⟩, ⟨InventoryType.MessageBlock, 99⟩,
            ⟨InventoryType.Error, 5⟩]) =
        specGetDataResponse demoStorage 0
          [⟨InventoryType.MessageBlock, 10⟩, ⟨InventoryType.MessageBlock, 99⟩,
            ⟨InventoryType.Error, 5⟩] ∧
        ∀ (inv nf : List InventoryVector), inv ≠ [] →
          ∃ nf', (execute_server_task demoStorage
              (ServerTask.ReversedGetData 0 inv nf)).1 =
            some (ServerTask.ReversedGetData 0 inv.dropLast nf')) :=
  ⟨by decide,
    c7_serve_get_data_run demoStorage 0
      [⟨InventoryType.MessageBlock, 10⟩, ⟨InventoryType.MessageBlock, 99⟩,
        ⟨InventoryType.Error, 5⟩] 6 (by decide)⟩

/-! ## Association-list lemmas for the ServerQueue -/

theorem assoc_lookup_eq_none {α : Type} (l : List (Nat × α)) (p : Nat) :
    assoc_lookup l p = none ↔ p ∉ l.map Prod.fst := by
  induction l with
  | nil => simp [assoc_lookup]
  | cons e rest ih =>
    obtain ⟨k, v⟩ := e
    by_cases hk : k = p
    · subst hk
      simp [assoc_lookup]
    · rw [assoc_lookup, if_neg hk]
      simp [ih, (Ne.symm hk : p ≠ k)]

theorem assoc_lookup_mem {α : Type} {l : List (Nat × α)} {p : Nat} {v : α}
    (h : assoc_lookup l p = some v) : (p, v) ∈ l := by
  induction l with
  | nil => simp [assoc_lookup] at h
  | cons e rest ih =>
    obtain ⟨k, w⟩ := e
    by_cases hk : k = p
    · subst hk
      rw [assoc_lookup, if_pos rfl] at h
      obtain rfl : w = v := by injection h
      exact List.mem_cons_self _ _
    · rw [assoc_lookup, if_neg hk] at h
      exact List.mem_cons_of_mem _ (ih h)

theorem mem_assoc_lookup {α : Type} {l : List (Nat × α)} {p : Nat} {v : α}
    (hnd : (l.map Prod.fst).Nodup) (h : (p, v) ∈ l) :
    assoc_lookup l p = some v := by
  induction l with
  | nil => simp at h
  | cons e rest ih =>
    obtain ⟨k, w⟩ := e
    rw [List.map_cons, List.nodup_cons] at hnd
    rcases List.mem_cons.1 h with heq | hmem
    · obtain ⟨rfl, rfl⟩ := Prod.mk.injEq .. ▸ heq
      simp [assoc_lookup]
    · by_cases hk : k = p
      · subst hk
        exact absurd (List.mem_map.2 ⟨(k, v), hmem, rfl⟩) hnd.1
      · rw [assoc_lookup, if_neg hk]
        exact ih hnd.2 hmem

theorem assoc_update_keys {α : Type} (l : List (Nat × α)) (p : Nat) (w : α) :
    (assoc_update l p w).map Prod.fst = l.map Prod.fst := by
  induction l with
  | nil => rfl
  | cons e rest ih =>
    obtain ⟨k, v⟩ := e
    by_cases hk : k = p
    · rw [assoc_update, if_pos hk]
      simp
    · rw [assoc_update, if_neg hk, List.map_cons, List.map_cons, ih]

theorem mem_assoc_update_self {α : Type} {l : List (Nat × α)} {p : Nat}
    {v : α} (w : α) (h : assoc_lookup l p = some v) :
    (p, w) ∈ assoc_update l p w := by
  induction l with
  | nil => simp [assoc_lookup] at h
  | cons e rest ih =>
    obtain ⟨k, u⟩ := e
    by_cases hk : k = p
    · subst hk
      rw [assoc_update, if_pos rfl]
      exact List.mem_cons_self _ _
    · rw [assoc_lookup, if_neg hk] at h
      rw [assoc_update, if_neg hk]
      exact List.mem_cons_of_mem _ (ih h)

theorem mem_assoc_update_of_ne {α : Type} {l : List (Nat × α)}
    {e : Nat × α} {p : Nat} {w : α} (he : e ∈ l) (hne : e.1 ≠ p) :
    e ∈ assoc_update l p w := by
  induction l with
  | nil => simp at he
  | cons f rest ih =>
    obtain ⟨k, u⟩ := f
    rcases List.mem_cons.1 he with rfl | hmem
    · have hk : ¬ k = p := by simpa using hne
      rw [assoc_update, if_neg hk]
      exact List.mem_cons_self _ _
    · by_cases hk : k = p
      · rw [assoc_update, if_pos hk]
        exact List.mem_cons_of_mem _ hmem
      · rw [assoc_update, if_neg hk]
        exact List.mem_cons_of_mem _ (ih hmem)

theorem mem_assoc_update_elim {α : Type} {l : List (Nat × α)}
    {e : Nat × α} {p : Nat} {w : α} (he : e ∈ assoc_update l p w) :
    e ∈ l ∨ e = (p, w) := by
  induction l with
  | nil => simp [assoc_update] at he
  | cons f rest ih =>
    obtain ⟨k, u⟩ := f
    by_cases hk : k = p
    · subst hk
      rw [assoc_update, if_pos rfl] at he
      rcases List.mem_cons.1 he with rfl | hmem
      · exact Or.inr rfl
      · exact Or.inl (List.mem_cons_of_mem _ hmem)
    · rw [assoc_update, if_neg hk] at he
      rcases List.mem_cons.1 he with rfl | hmem
      · exact Or.inl (List.mem_cons_self _ _)
      · rcases ih hmem with h | h
        · exact Or.inl (List.mem_cons_of_mem _ h)
        · exact Or.inr h

theorem assoc_remove_sublist {α : Type} (l : List (Nat × α)) (p : Nat) :
    List.Sublist (assoc_remove l p) l := by
  induction l with
  | nil => simp [assoc_remove]
  | cons e rest ih =>
    obtain ⟨k, v⟩ := e
    by_cases hk : k = p
    · rw [assoc_remove, if_pos hk]
      exact List.sublist_cons_self _ _
    · rw [assoc_remove, if_neg hk]
      exact ih.cons₂ _

theorem mem_assoc_remove_of_ne {α : Type} {l : List (Nat × α)}
    {e : Nat × α} {p : Nat} (he : e ∈ l) (hne : e.1 ≠ p) :
    e ∈ assoc_remove l p := by
  induction l with
  | nil => simp at he
  | cons f rest ih =>
    obtain ⟨k, u⟩ := f
    rcases List.mem_cons.1 he with rfl | hmem
    · have hk : ¬ k = p := by simpa using hne
      rw [assoc_remove, if_neg hk]
      exact List.mem_cons_self _ _
    · by_cases hk : k = p
      · rw [assoc_remove, if_pos hk]
        exact hmem
      · rw [assoc_remove, if_neg hk]
        exact List.mem_cons_of_mem _ (ih hmem)

theorem mem_assoc_remove_ne {α : Type} {l : List (Nat × α)} {p : Nat}
    (hnd : (l.map Prod.fst).Nodup) {e : Nat × α}
    (he : e ∈ assoc_remove l p) : e.1 ≠ p := by
  induction l with
  | nil => simp [assoc_remove] at he
  | cons f rest ih =>
    obtain ⟨k, u⟩ := f
    rw [List.map_cons, List.nodup_cons] at hnd
    by_cases hk : k = p
    · subst hk
      rw [assoc_remove, if_pos rfl] at he
      intro hep
      exact hnd.1 (List.mem_map.2 ⟨e, he, hep⟩)
    · rw [assoc_remove, if_neg hk] at he
      rcases List.mem_cons.1 he with rfl | hmem
      · simpa using hk
      · exact ih hnd.2 hmem

/-! ## Claim theorems: ServerQueue invariants -/

theorem serverQueueInv_update_nonempty (q : ServerQueue) (p : Nat)
    (ts ts' : List ServerTask) (hts' : ts' ≠ [])
    (hq : ServerQueueInv q) (hp : assoc_lookup q.tasks_queue p = some ts) :
    ServerQueueInv ⟨q.peers_queue, assoc_update q.tasks_queue p ts'⟩ := by
  obtain ⟨hnd1, hnd2, h3, h4⟩ := hq
  have hpmem : p ∈ q.peers_queue := (h4 _ (assoc_lookup_mem hp)).2
  refine ⟨hnd1, by rw [assoc_update_keys]; exact hnd2, ?_, ?_⟩
  · intro p' hp'
    obtain ⟨e, he, he1, he2⟩ := h3 p' hp'
    by_cases hep : e.1 = p
    · exact ⟨(p, ts'), mem_assoc_update_self ts' hp, by rw [← hep, he1], hts'⟩
    · exact ⟨e, mem_assoc_update_of_ne he hep, he1, he2⟩
  · intro e he
    rcases mem_assoc_update_elim he with hmem | rfl
    · exact h4 e hmem
    · exact ⟨hts', hpmem⟩

theorem serverQueueInv_insert_new (q : ServerQueue) (p : Nat)
    (task : ServerTask) (hq : ServerQueueInv q)
    (hnone : assoc_lookup q.tasks_queue p = none) :
    ServerQueueInv
      ⟨q.peers_queue ++ [p], (p, [task]) :: q.tasks_queue⟩ := by
  obtain ⟨hnd1, hnd2, h3, h4⟩ := hq
  have hnk : p ∉ q.tasks_queue.map Prod.fst := (assoc_lookup_eq_none _ _).1 hnone
  have hnp : p ∉ q.peers_queue := by
    intro hp
    obtain ⟨e, he, he1, -⟩ := h3 p hp
    exact hnk (List.mem_map.2 ⟨e, he, he1⟩)
  refine ⟨?_, ?_, ?_, ?_⟩
  · refine List.Nodup.append hnd1 (List.nodup_singleton _) ?_
    intro a ha hb
    rw [List.mem_singleton] at hb
    exact hnp (hb ▸ ha)
  · rw [List.map_cons]
    exact List.nodup_cons.2 ⟨hnk, hnd2⟩
  · intro p' hp'
    rcases List.mem_append.1 hp' with hp' | hp'
    · obtain ⟨e, he, he1, he2⟩ := h3 p' hp'
      exact ⟨e, List.mem_cons_of_mem _ he, he1, he2⟩
    · rw [List.mem_singleton] at hp'
      exact ⟨(p, [task]), List.mem_cons_self _ _, hp'.symm, by simp⟩
  · intro e he
    rcases List.mem_cons.1 he with rfl | hmem
    · exact ⟨by simp, List.mem_append_right _ (List.mem_singleton.2 rfl)⟩
    · obtain ⟨he2, he1⟩ := h4 e hmem
      exact ⟨he2, List.mem_append_left _ he1⟩

/-- C8: every mutation of the `ServerQueue` — `add_task`, `add_task_front`,
`next_task`, `remove_peer_tasks` — preserves the queue invariant: a peer
appears in `peers_queue` iff its `tasks_queue` entry exists and is
non-empty, and `peers_queue` has no duplicates. -/
theorem c8_server_queue_invariant (q : ServerQueue) (task : ServerTask)
    (p : Nat) (hq : ServerQueueInv q) :
    ServerQueueInv (q.add_task task) ∧
      ServerQueueInv (q.add_task_front task) ∧
      ServerQueueInv q.next_task.1 ∧
      ServerQueueInv (q.remove_peer_tasks p) := by
  obtain ⟨hnd1, hnd2, h3, h4⟩ := hq
  refine ⟨?_, ?_, ?_, ?_⟩
  · rw [ServerQueue.add_task]
    rcases hl : assoc_lookup q.tasks_queue task.peer_index with _ | ts
    · exact serverQueueInv_insert_new q task.peer_index task
        ⟨hnd1, hnd2, h3, h4⟩ hl
    · have hts : ts ≠ [] := (h4 _ (assoc_lookup_mem hl)).1
      rcases ts with _ | ⟨t0, ts0⟩
      · exact absurd rfl hts
      · exact serverQueueInv_update_nonempty q task.peer_index _ _
          (by simp) ⟨hnd1, hnd2, h3, h4⟩ hl
  · rw [ServerQueue.add_task_front]
    rcases hl : assoc_lookup q.tasks_queue task.peer_index with _ | ts
    · exact serverQueueInv_insert_new q task.peer_index task
        ⟨hnd1, hnd2, h3, h4⟩ hl
    · have hts : ts ≠ [] := (h4 _ (assoc_lookup_mem hl)).1
      rcases ts with _ | ⟨t0, ts0⟩
      · exact absurd rfl hts
      · exact serverQueueInv_update_nonempty q task.peer_index _ _
          (by simp) ⟨hnd1, hnd2, h3, h4⟩ hl
  · rw [ServerQueue.next_task]
    rcases hpq : q.peers_queue with _ | ⟨p0, rest⟩
    · exact ⟨hnd1, hnd2, h3, h4⟩
    · have hrest := hpq ▸ hnd1
      rw [List.nodup_cons] at hrest
      obtain ⟨e, he, he1, he2⟩ := h3 p0 (hpq ▸ List.mem_cons_self _ _)
      have hl : assoc_lookup q.tasks_queue p0 = some e.2 := by
        rw [← he1]
        exact mem_assoc_lookup hnd2 he
      rcases hets : e.2 with _ | ⟨t0, ts0⟩
      · exact absurd hets he2
      · rw [hets] at hl
        dsimp only
        rw [hl]
        dsimp only
        rcases ts0 with _ | ⟨t1, ts1⟩
        · refine ⟨hrest.2, ?_, ?_, ?_⟩
          · exact hnd2.sublist ((assoc_remove_sublist _ _).map Prod.fst)
          · intro p' hp'
            have hp'ne : p' ≠ p0 := fun h => hrest.1 (h ▸ hp')
            obtain ⟨e', he', he'1, he'2⟩ :=
              h3 p' (hpq ▸ List.mem_cons_of_mem _ hp')
            exact ⟨e', mem_assoc_remove_of_ne he' (he'1.symm ▸ hp'ne), he'1,
              he'2⟩
          · intro e' he'
            obtain ⟨he'2, he'1⟩ :=
              h4 e' ((assoc_remove_sublist _ _).subset he')
            have hne : e'.1 ≠ p0 := mem_assoc_remove_ne hnd2 he'
            rw [hpq] at he'1
            rcases List.mem_cons.1 he'1 with h | h
            · exact absurd h hne
            · exact ⟨he'2, h⟩
        · rw [if_neg (by simp : ¬ ((t1 :: ts1).isEmpty = true))]
          refine ⟨?_, by rw [assoc_update_keys]; exact hnd2, ?_, ?_⟩
          · refine List.Nodup.append hrest.2 (List.nodup_singleton _) ?_
            intro a ha hb
            rw [List.mem_singleton] at hb
            exact hrest.1 (hb ▸ ha)
          · intro p' hp'
            rcases List.mem_append.1 hp' with hp' | hp'
            · have hp'ne : p' ≠ p0 := fun h => hrest.1 (h ▸ hp')
              obtain ⟨e', he', he'1, he'2⟩ :=
                h3 p' (hpq ▸ List.mem_cons_of_mem _ hp')
              exact ⟨e', mem_assoc_update_of_ne he' (he'1.symm ▸ hp'ne),
                he'1, he'2⟩
            · rw [List.mem_singleton] at hp'
              exact ⟨(p0, t1 :: ts1), mem_assoc_update_self _ hl, hp'.symm,
                by simp⟩
          · intro e' he'
            rcases mem_assoc_update_elim he' with hmem | rfl
            · obtain ⟨he'2, he'1⟩ := h4 e' hmem
              rw [hpq] at he'1
              rcases List.mem_cons.1 he'1 with h | h
              · exact ⟨he'2, h ▸ List.mem_append_right _
                  (List.mem_singleton.2 rfl)⟩
              · exact ⟨he'2, List.mem_append_left _ h⟩
            · exact ⟨by simp, List.mem_append_right _
                (List.mem_singleton.2 rfl)⟩
  · rw [ServerQueue.remove_peer_tasks]
    rcases hl : assoc_lookup q.tasks_queue p with _ | ts
    · exact ⟨hnd1, hnd2, h3, h4⟩
    · refine ⟨hnd1.erase _, ?_, ?_, ?_⟩
      · exact hnd2.sublist ((assoc_remove_sublist _ _).map Prod.fst)
      · intro p' hp'
        obtain ⟨hp'ne, hp'mem⟩ := (List.Nodup.mem_erase_iff hnd1).1 hp'
        obtain ⟨e, he, he1, he2⟩ := h3 p' hp'mem
        exact ⟨e, mem_assoc_remove_of_ne he (he1.symm ▸ hp'ne), he1, he2⟩
      · intro e he
        obtain ⟨he2, he1⟩ := h4 e ((assoc_remove_sublist _ _).subset he)
        have hne : e.1 ≠ p := mem_assoc_remove_ne hnd2 he
        exact ⟨he2, (List.Nodup.mem_erase_iff hnd1).2 ⟨hne, he1⟩⟩

/-- Witness for C8 at a concrete one-peer queue. -/
theorem c8_server_queue_invariant_witness :
    ServerQueueInv ⟨[7], [(7, [ServerTask.Mempool 7])]⟩ ∧
      (ServerQueueInv
          ((⟨[7], [(7, [ServerTask.Mempool 7])]⟩ : ServerQueue).add_task
            (ServerTask.Mempool 7)) ∧
        ServerQueueInv
          ((⟨[7], [(7, [ServerTask.Mempool 7])]⟩ : ServerQueue).add_task_front
            (ServerTask.Mempool 7)) ∧
        ServerQueueInv
          (⟨[7], [(7, [ServerTask.Mempool 7])]⟩ : ServerQueue).next_task.1 ∧
        ServerQueueInv
          ((⟨[7], [(7, [ServerTask.Mempool 7])]⟩ :
            ServerQueue).remove_peer_tasks 3)) :=
  ⟨by decide,
    c8_server_queue_invariant ⟨[7], [(7, [ServerTask.Mempool 7])]⟩
      (ServerTask.Mempool 7) 3 (by decide)⟩

/-! ## Ancestry lemmas for locate_best_common_block -/

theorem assoc_lookup_mem_keys {α : Type} {l : List (Nat × α)} {p : Nat}
    {v : α} (h : assoc_lookup l p = some v) : p ∈ l.map Prod.fst :=
  List.mem_map.2 ⟨(p, v), assoc_lookup_mem h, rfl⟩

theorem iterPrev_add (st : ServerStorage) (j k : Nat) :
    ∀ h, iterPrev st (j + k) h =
      (iterPrev st j h).bind (fun x => iterPrev st k x) := by
  induction j with
  | zero =>
    intro h
    rw [Nat.zero_add]
    rfl
  | succ j ih =>
    intro h
    rw [Nat.succ_add, iterPrev, iterPrev]
    rcases hs : step_prev st h with _ | h'
    · rfl
    · exact ih h'

theorem iterPrev_isSome_of_le (st : ServerStorage) {k : Nat} {h a : Nat}
    (hk : iterPrev st k h = some a) {i : Nat} (hi : i ≤ k) :
    ∃ b, iterPrev st i h = some b := by
  have hadd := iterPrev_add st i (k - i) h
  rw [Nat.add_sub_cancel' hi] at hadd
  rw [hadd] at hk
  rcases hb : iterPrev st i h with _ | b
  · rw [hb] at hk
    simp at hk
  · exact ⟨b, rfl⟩

theorem iterPrev_header_of_lt (st : ServerStorage) {k : Nat} {h a : Nat}
    (hk : iterPrev st k h = some a) {i : Nat} (hi : i < k) {b : Nat}
    (hb : iterPrev st i h = some b) :
    ∃ hd, block_header st b = some hd := by
  obtain ⟨c, hc⟩ := iterPrev_isSome_of_le st hk (Nat.succ_le_of_lt hi)
  have hadd := iterPrev_add st i 1 h
  rw [hadd, hb] at hc
  simp only [Option.some_bind] at hc
  rw [iterPrev] at hc
  rcases hs : step_prev st b with _ | b'
  · rw [hs] at hc
    simp at hc
  · rcases hhd : block_header st b with _ | hd
    · rw [step_prev, hhd] at hs
      simp at hs
    · exact ⟨hd, rfl⟩

theorem iterPrev_shorten (st : ServerStorage) :
    ∀ (k : Nat) {h a : Nat}, iterPrev st k h = some a →
      ∃ m, m ≤ st.headers.length ∧ iterPrev st m h = some a := by
  intro k
  induction k using Nat.strong_induction_on with
  | _ k ih =>
    intro h a hk
    by_cases hle : k ≤ st.headers.length
    · exact ⟨k, hle, hk⟩
    · push_neg at hle
      have hmaps : ∀ i ∈ Finset.range (st.headers.length + 1),
          (iterPrev st i h).getD 0 ∈
            (st.headers.map Prod.fst).toFinset := by
        intro i hi
        rw [Finset.mem_range] at hi
        have hik : i < k := by omega
        obtain ⟨b, hb⟩ := iterPrev_isSome_of_le st hk (Nat.le_of_lt hik)
        obtain ⟨hd, hhd⟩ := iterPrev_header_of_lt st hk hik hb
        rw [hb]
        simp only [Option.getD_some]
        exact List.mem_toFinset.2 (assoc_lookup_mem_keys hhd)
      have hcard : ((st.headers.map Prod.fst).toFinset).card <
          (Finset.range (st.headers.length + 1)).card := by
        calc ((st.headers.map Prod.fst).toFinset).card
            ≤ (st.headers.map Prod.fst).length := List.toFinset_card_le _
          _ = st.headers.length := List.length_map _ _
          _ < (Finset.range (st.headers.length + 1)).card := by
              rw [Finset.card_range]; omega
      obtain ⟨i, hi, j, hj, hij, hfij⟩ :=
        Finset.exists_ne_map_eq_of_card_lt_of_maps_to hcard hmaps
      rw [Finset.mem_range] at hi hj
      rcases Nat.lt_or_ge i j with hlt | hge
      · obtain ⟨v, hv⟩ := iterPrev_isSome_of_le st hk
          (show i ≤ k by omega)
        obtain ⟨w, hw⟩ := iterPrev_isSome_of_le st hk
          (show j ≤ k by omega)
        have hvw : v = w := by
          rw [hv, hw] at hfij
          simpa using hfij
        subst hvw
        have hk1 : iterPrev st (k - j) v = some a := by
          have hadd := iterPrev_add st j (k - j) h
          rw [Nat.add_sub_cancel' (by omega : j ≤ k)] at hadd
          rw [hadd, hw] at hk
          simpa using hk
        have hk2 : iterPrev st (i + (k - j)) h = some a := by
          rw [iterPrev_add st i (k - j) h, hv]
          simpa using hk1
        exact ih (i + (k - j)) (by omega) hk2
      · have hlt : j < i := by omega
        obtain ⟨v, hv⟩ := iterPrev_isSome_of_le st hk
          (show j ≤ k by omega)
        obtain ⟨w, hw⟩ := iterPrev_isSome_of_le st hk
          (show i ≤ k by omega)
        have hvw : v = w := by
          rw [hv, hw] at hfij
          simpa using hfij.symm
        subst hvw
        have hk1 : iterPrev st (k - i) v = some a := by
          have hadd := iterPrev_add st i (k - i) h
          rw [Nat.add_sub_cancel' (by omega : i ≤ k)] at hadd
          rw [hadd, hw] at hk
          simpa using hk
        have hk2 : iterPrev st (j + (k - i)) h = some a := by
          rw [iterPrev_add st j (k - i) h, hv]
          simpa using hk1
        exact ih (j + (k - i)) (by omega) hk2

theorem walkBack_sound (st : ServerStorage) :
    ∀ (fuel : Nat) (h n : Nat), walkBack st fuel h = some n →
      ∃ m a, 1 ≤ m ∧ iterPrev st m h = some a ∧
        block_number st a = some n ∧
        ∀ j b, 1 ≤ j → j < m → iterPrev st j h = some b →
          block_number st b = none := by
  intro fuel
  induction fuel with
  | zero => intro h n hw; simp [walkBack] at hw
  | succ fuel ih =>
    intro h n hw
    rw [walkBack] at hw
    rcases hhd : block_header st h with _ | hd
    · rw [hhd] at hw
      simp at hw
    · rw [hhd] at hw
      dsimp only at hw
      have hstep : step_prev st h = some hd.raw.previous_header_hash := by
        rw [step_prev, hhd]
        rfl
      rcases hnum : block_number st hd.raw.previous_header_hash with _ | m0
      · rw [hnum] at hw
        dsimp only at hw
        obtain ⟨m, a, hm1, hma, hman, hfh⟩ :=
          ih hd.raw.previous_header_hash n hw
        refine ⟨m + 1, a, by omega, ?_, hman, ?_⟩
        · have hadd := iterPrev_add st 1 m h
          rw [Nat.add_comm 1 m] at hadd
          rw [hadd]
          rw [iterPrev, hstep]
          simpa [iterPrev] using hma
        · intro j b hj1 hjm hjb
          rcases j with _ | j'
          · omega
          · rcases j' with _ | j''
            · have : b = hd.raw.previous_header_hash := by
                rw [iterPrev, hstep] at hjb
                simpa [iterPrev] using hjb.symm
              rw [this]
              exact hnum
            · have hadd := iterPrev_add st 1 (j'' + 1) h
              rw [Nat.add_comm 1 (j'' + 1)] at hadd
              rw [hadd, iterPrev, hstep] at hjb
              simp only [Option.some_bind] at hjb
              have : iterPrev st (j'' + 1) hd.raw.previous_header_hash =
                  some b := by simpa [iterPrev] using hjb
              exact hfh (j'' + 1) b (by omega) (by omega) this
      · rw [hnum] at hw
        dsimp only at hw
        obtain rfl : m0 = n := by injection hw
        refine ⟨1, hd.raw.previous_header_hash, le_refl 1, ?_, hnum, ?_⟩
        · rw [iterPrev, hstep]
          rfl
        · intro j b hj1 hjm
          omega

theorem walkBack_complete (st : ServerStorage) :
    ∀ (m : Nat) (fuel h a n : Nat), m ≤ fuel → 1 ≤ m →
      iterPrev st m h = some a → block_number st a = some n →
      (∀ j b, 1 ≤ j → j < m → iterPrev st j h = some b →
        block_number st b = none) →
      walkBack st fuel h = some n := by
  intro m
  induction m with
  | zero => intro fuel h a n _ h1; omega
  | succ m ih =>
    intro fuel h a n hmf _ hma hnum hfh
    rcases fuel with _ | fuel
    · omega
    · rw [iterPrev] at hma
      rcases hs : step_prev st h with _ | p
      · rw [hs] at hma
        simp at hma
      · rw [hs] at hma
        rcases hhd : block_header st h with _ | hd
        · rw [step_prev, hhd] at hs
          simp at hs
        · have hp : hd.raw.previous_header_hash = p := by
            rw [step_prev, hhd] at hs
            injection hs
          rw [walkBack, hhd]
          dsimp only
          rw [hp]
          have hstep1 : iterPrev st 1 h = some p := by
            rw [iterPrev, hs]
            rfl
          rcases m with _ | m'
          · obtain rfl : p = a := by
              simpa [iterPrev] using hma
            rw [hnum]
          · have hpnone : block_number st p = none :=
              hfh 1 p (le_refl 1) (by omega) hstep1
            rw [hpnone]
            dsimp only
            refine ih fuel p a n (by omega) (by omega) hma hnum ?_
            intro j b hj1 hjm hjb
            have hadd := iterPrev_add st 1 j h
            rw [Nat.add_comm 1 j] at hadd
            refine hfh (j + 1) b (by omega) (by omega) ?_
            rw [hadd, hstep1]
            simpa using hjb

theorem cand_sound (st : ServerStorage) {h n : Nat}
    (hc : locate_candidate st h = some n) :
    ∃ a, IsAncestor st a h ∧ block_number st a = some n := by
  rw [locate_candidate] at hc
  rcases hnum : block_number st h with _ | n0
  · rw [hnum] at hc
    dsimp only at hc
    obtain ⟨m, a, -, hma, hman, -⟩ := walkBack_sound st _ h n hc
    exact ⟨a, ⟨m, hma⟩, hman⟩
  · rw [hnum] at hc
    dsimp only at hc
    obtain rfl : n0 = n := by injection hc
    exact ⟨h, ⟨0, rfl⟩, hnum⟩

theorem cand_complete (st : ServerStorage) {h a n : Nat}
    (hanc : IsAncestor st a h) (hnum : block_number st a = some n) :
    ∃ n', locate_candidate st h = some n' := by
  obtain ⟨k, hk⟩ := hanc
  rw [locate_candidate]
  rcases hnumh : block_number st h with _ | n0
  · dsimp only
    obtain ⟨m, hmL, hm⟩ := iterPrev_shorten st k hk
    have hm1 : 1 ≤ m := by
      rcases m with _ | m'
      · obtain rfl : h = a := by simpa [iterPrev] using hm
        rw [hnumh] at hnum
        simp at hnum
      · omega
    have hex : ∃ j, 1 ≤ j ∧
        ((iterPrev st j h).bind (block_number st)).isSome = true :=
      ⟨m, hm1, by rw [hm]; simp [hnum]⟩
    have hspec := Nat.find_spec hex
    obtain ⟨hj1, hjs⟩ := hspec
    rcases hj : iterPrev st (Nat.find hex) h with _ | b
    · rw [hj] at hjs
      simp at hjs
    · rw [hj] at hjs
      simp only [Option.some_bind] at hjs
      rcases hbn : block_number st b with _ | nb
      · rw [hbn] at hjs
        simp at hjs
      · have hfh : ∀ j b', 1 ≤ j → j < Nat.find hex →
            iterPrev st j h = some b' → block_number st b' = none := by
          intro j b' hj1' hjlt hjb
          rcases hbn' : block_number st b' with _ | x
          · rfl
          · exact absurd ⟨hj1', by rw [hjb]; simp [hbn']⟩
              (Nat.find_min hex hjlt)
        have hjm : Nat.find hex ≤ m := Nat.find_min' hex
          ⟨hm1, by rw [hm]; simp [hnum]⟩
        exact ⟨nb, walkBack_complete st (Nat.find hex)
          (st.headers.length + 1) h b nb (by omega) hj1 hj hbn hfh⟩
  · exact ⟨n0, rfl⟩

theorem cand_deepest (st : ServerStorage) (hmono : MonotoneHeights st)
    {h n a' n' : Nat} (hc : locate_candidate st h = some n)
    (hanc : IsAncestor st a' h) (hn' : block_number st a' = some n') :
    n' ≤ n := by
  rw [locate_candidate] at hc
  rcases hnumh : block_number st h with _ | n0
  · rw [hnumh] at hc
    dsimp only at hc
    obtain ⟨m, a, hm1, hma, hman, hfh⟩ := walkBack_sound st _ h n hc
    obtain ⟨k, hk⟩ := hanc
    rcases Nat.lt_or_ge k m with hkm | hkm
    · rcases k with _ | k'
      · obtain rfl : h = a' := by simpa [iterPrev] using hk
        rw [hnumh] at hn'
        simp at hn'
      · have := hfh (k' + 1) a' (by omega) hkm hk
        rw [this] at hn'
        simp at hn'
    · have hadd := iterPrev_add st m (k - m) h
      rw [Nat.add_sub_cancel' hkm] at hadd
      rw [hadd, hma] at hk
      simp only [Option.some_bind] at hk
      exact hmono a' a n' n ⟨k - m, hk⟩ hn' hman
  · rw [hnumh] at hc
    dsimp only at hc
    obtain rfl : n0 = n := by injection hc
    exact hmono a' h n' n0 hanc hn' hnumh

theorem findSome_eq_some_split (f : Nat → Option Nat) :
    ∀ (l : List Nat) (n : Nat),
      l.findSome? f = some n ↔
        ∃ l1 x l2, l = l1 ++ x :: l2 ∧ (∀ y ∈ l1, f y = none) ∧
          f x = some n := by
  intro l
  induction l with
  | nil =>
    intro n
    constructor
    · intro hw
      simp [List.findSome?] at hw
    · rintro ⟨l1, x, l2, heq, -, -⟩
      rcases l1 with _ | _ <;> simp at heq
  | cons a l ih =>
    intro n
    rw [List.findSome?_cons]
    constructor
    · rcases hfa : f a with _ | b
      · intro hw
        obtain ⟨l1, x, l2, heq, hnone, hx⟩ := (ih n).1 hw
        refine ⟨a :: l1, x, l2, by rw [heq, List.cons_append], ?_, hx⟩
        intro y hy
        rcases List.mem_cons.1 hy with rfl | hy'
        · exact hfa
        · exact hnone y hy'
      · intro hw
        obtain rfl : b = n := by injection hw
        exact ⟨[], a, l, rfl, by simp, hfa⟩
    · rintro ⟨l1, x, l2, heq, hnone, hx⟩
      rcases l1 with _ | ⟨y, l1'⟩
      · obtain ⟨rfl, rfl⟩ : a = x ∧ l = l2 := by
          rw [List.nil_append] at heq
          exact ⟨by injection heq, by injection heq⟩
        rw [hx]
      · obtain ⟨rfl, hl⟩ : a = y ∧ l = l1' ++ x :: l2 := by
          rw [List.cons_append] at heq
          exact ⟨by injection heq, by injection heq⟩
        rw [hnone a (List.mem_cons_self _ _)]
        exact (ih n).2 ⟨l1', x, l2, hl, fun z hz =>
          hnone z (List.mem_cons_of_mem _ hz), hx⟩

/-- C4: `locate_best_common_block` returns `some n` iff some hash in
`locator ++ [hash_stop]` has an ancestor (inclusive) on the main chain —
every earlier locator entry having none — and `n` is the height of the
deepest (maximal-height) canonical ancestor of that first resolvable
entry.  Stated under the chain well-formedness assumption that main-chain
heights never increase towards ancestors. -/
theorem c4_locate_best_common_block (st : ServerStorage) (hash_stop : Nat)
    (locator : List Nat) (n : Nat) (hmono : MonotoneHeights st) :
    locate_best_common_block st hash_stop locator = some n ↔
      ∃ l1 h l2, locator ++ [hash_stop] = l1 ++ h :: l2 ∧
        (∀ h' ∈ l1, ¬ HasCanonicalAncestor st h') ∧
        (∃ a, IsAncestor st a h ∧ block_number st a = some n ∧
          ∀ a' n', IsAncestor st a' h → block_number st a' = some n' →
            n' ≤ n) := by
  rw [locate_best_common_block, findSome_eq_some_split]
  constructor
  · rintro ⟨l1, h, l2, heq, hnone, hx⟩
    refine ⟨l1, h, l2, heq, ?_, ?_⟩
    · rintro h' hh' ⟨a, na, hanc, hna⟩
      obtain ⟨n', hn'⟩ := cand_complete st hanc hna
      rw [hnone h' hh'] at hn'
      simp at hn'
    · obtain ⟨a, hanc, hna⟩ := cand_sound st hx
      exact ⟨a, hanc, hna, fun a' n' ha' hn' =>
        cand_deepest st hmono hx ha' hn'⟩
  · rintro ⟨l1, h, l2, heq, hno, a, hanc, hna, hdeep⟩
    refine ⟨l1, h, l2, heq, ?_, ?_⟩
    · intro y hy
      rcases hc : locate_candidate st y with _ | m
      · rfl
      · obtain ⟨a0, hanc0, hna0⟩ := cand_sound st hc
        exact absurd ⟨a0, m, hanc0, hna0⟩ (hno y hy)
    · obtain ⟨m, hm⟩ := cand_complete st hanc hna
      obtain ⟨a0, hanc0, hna0⟩ := cand_sound st hm
      have h1 : m ≤ n := hdeep a0 m hanc0 hna0
      have h2 : n ≤ m := cand_deepest st hmono hm hanc hna
      rw [hm, Nat.le_antisymm h1 h2]

theorem demoStorage_monotone : MonotoneHeights demoStorage := by
  intro a h na nh hanc hna hnh
  have ha : (a = 10 ∧ na = 0) ∨ (a = 11 ∧ na = 1) := by
    have hm := assoc_lookup_mem (l := demoStorage.numbers) hna
    simpa [demoStorage] using hm
  have hh : (h = 10 ∧ nh = 0) ∨ (h = 11 ∧ nh = 1) := by
    have hm := assoc_lookup_mem (l := demoStorage.numbers) hnh
    simpa [demoStorage] using hm
  rcases ha with ⟨rfl, rfl⟩ | ⟨rfl, rfl⟩
  · exact Nat.zero_le nh
  · rcases hh with ⟨rfl, rfl⟩ | ⟨rfl, rfl⟩
    · exfalso
      obtain ⟨k, hk⟩ := hanc
      rcases k with _ | k
      · simp [iterPrev] at hk
      · rcases k with _ | k
        · simp [iterPrev, step_prev, block_header, demoStorage,
            assoc_lookup] at hk
        · simp [iterPrev, step_prev, block_header, demoStorage,
            assoc_lookup] at hk
    · exact le_refl 1

/-- Witness for C4: the side-branch hash `12` resolves through its parent
to the canonical block `10` at height 0. -/
theorem c4_locate_best_common_block_witness :
    MonotoneHeights demoStorage ∧
      (locate_best_common_block demoStorage 0 [12] = some 0 ↔
        ∃ l1 h l2, [12] ++ [0] = l1 ++ h :: l2 ∧
          (∀ h' ∈ l1, ¬ HasCanonicalAncestor demoStorage h') ∧
          (∃ a, IsAncestor demoStorage a h ∧
            block_number demoStorage a = some 0 ∧
            ∀ a' n', IsAncestor demoStorage a' h →
              block_number demoStorage a' = some n' → n' ≤ 0)) :=
  ⟨demoStorage_monotone,
    c4_locate_best_common_block demoStorage 0 [12] 0 demoStorage_monotone⟩
